import Mathlib

/-!
Verification development for the Bangalore subreddit analytics pipeline.

The Python sources are shallowly embedded here:
* `topic-modeling-script.py`: `clean_text` (text normalisation) and
  `assign_topic` (keyword classifier over the `TOPIC_KEYWORDS` taxonomy);
* `dashboard-data-generator.py`: `generate_topic_trends`,
  `generate_topic_distribution`, `generate_top_posts` and the pieces of
  `generate_insights` (summary statistics, growth/trending detection).

Text is modelled as `List Char` (Python `str` restricted to its exact
character operations); Python dicts that are serialised to JSON are modelled
as association lists so that the presence and order of keys is observable;
`float` quantities (growth rates, averages) are modelled over `ℚ`, with
pandas `NaN` results modelled as `Option.none` and raised exceptions as
`Except.error`.
-/

namespace BlrDash

/-! ## Character classes (Python `\s`, `[a-zA-Z]`, `str.lower`) -/

/-- Python whitespace (`\s`, `str.split`) restricted to ASCII. -/
def isSpc (c : Char) : Bool :=
  c = ' ' || c = '\t' || c = '\n' || c = '\r' || c = '\x0b' || c = '\x0c'

/-- The character class `[a-zA-Z]` of `clean_text`'s second regex. -/
def isAlphaChar (c : Char) : Bool :=
  decide (('a' ≤ c ∧ c ≤ 'z') ∨ ('A' ≤ c ∧ c ≤ 'Z'))

/-- ASCII `str.lower` on one character. -/
def toLowerChar (c : Char) : Char :=
  if 'A' ≤ c ∧ c ≤ 'Z' then Char.ofNat (c.toNat + 32) else c

/-- `str.lower` over the whole string. -/
def lowerStr (l : List Char) : List Char := l.map toLowerChar

/-! ## URL removal: `re.sub(r'http\S+|www\S+|https\S+', '', text)`

The alternation tries `http\S+` first, then `www\S+` (the `https\S+` branch
is subsumed by `http\S+`).  `\S+` is greedy, so a match always extends to
the end of the current non-whitespace run. -/

/-- Length of the leading run of non-whitespace characters (`\S+`, greedy). -/
def nonspaceLen (l : List Char) : Nat :=
  (l.takeWhile (fun c => !isSpc c)).length

/-- Does `http\S+` match at the head of `l`? -/
def httpAt (l : List Char) : Bool :=
  decide (l.take 4 = ['h', 't', 't', 'p']) && (l[4]?).any (fun c => !isSpc c)

/-- Does `www\S+` match at the head of `l`? -/
def wwwAt (l : List Char) : Bool :=
  decide (l.take 3 = ['w', 'w', 'w']) && (l[3]?).any (fun c => !isSpc c)

/-- Does the URL regex match at the head of `l`? -/
def urlAt (l : List Char) : Bool := httpAt l || wwwAt l

/-- `re.sub(r'http\S+|www\S+|https\S+', '', l)`: scan left to right, removing
each greedy match. -/
def urlSub : List Char → List Char
  | [] => []
  | c :: rest =>
    if httpAt (c :: rest) then urlSub (rest.drop (3 + nonspaceLen (rest.drop 3)))
    else if wwwAt (c :: rest) then urlSub (rest.drop (2 + nonspaceLen (rest.drop 2)))
    else c :: urlSub rest
  termination_by l => l.length
  decreasing_by
    · simp only [List.length_drop, List.length_cons]
      omega
    · simp only [List.length_drop, List.length_cons]
      omega
    · simp only [List.length_cons]
      omega

/-! ## `re.sub(r'[^a-zA-Z\s]', ' ', text)` and `' '.join(text.split())` -/

/-- Replace every character outside `[a-zA-Z\s]` with a space. -/
def toSpaces (l : List Char) : List Char :=
  l.map (fun c => if isAlphaChar c || isSpc c then c else ' ')

/-- `str.split()`: the maximal runs of non-whitespace characters. -/
def splitWS : List Char → List (List Char)
  | [] => []
  | c :: rest =>
    if isSpc c then splitWS rest
    else (c :: rest.takeWhile (fun d => !isSpc d)) ::
      splitWS (rest.dropWhile (fun d => !isSpc d))
  termination_by l => l.length
  decreasing_by
    · simp only [List.length_cons]
      omega
    · have := (List.dropWhile_suffix (l := rest) (fun d => !isSpc d)).length_le
      simp only [List.length_cons]
      omega

/-- `' '.join(words)`. -/
def joinWords : List (List Char) → List Char
  | [] => []
  | [w] => w
  | w :: ws => w ++ ' ' :: joinWords ws

/-- `clean_text` of `topic-modeling-script.py`: `None` check (`pd.isna`),
lowercase, URL removal, replacement of special characters by spaces, and
whitespace collapsing. -/
def clean_text (text : Option (List Char)) : List Char :=
  match text with
  | none => []
  | some s => joinWords (splitWS (toSpaces (urlSub (lowerStr s))))

/-- Specification predicate for the idempotence proof: no suffix of the
word, followed by a whitespace boundary, matches the URL regex. -/
def wordOK (w : List Char) : Prop :=
  ∀ u, u <:+ w → urlAt (u ++ [' ']) = false

/-- Specification predicate: the URL regex matches at no position. -/
def urlFree (z : List Char) : Prop :=
  ∀ t, t <:+ z → urlAt t = false

/-! ## Keyword classifier: `assign_topic` of `topic-modeling-script.py` -/

/-- Python `str.count(pat)`: non-overlapping occurrences, scanned left to
right (an empty pattern counts `length + 1` times, as in Python). -/
def countOccs (pat : List Char) : List Char → Nat
  | [] => if pat = [] then 1 else 0
  | c :: rest =>
    if pat = [] then 1 + countOccs pat rest
    else if pat.isPrefixOf (c :: rest) then 1 + countOccs pat (rest.drop (pat.length - 1))
    else countOccs pat rest
  termination_by l => l.length
  decreasing_by
    all_goals simp only [List.length_drop, List.length_cons]
    all_goals omega

/-- A taxonomy, as the ordered `TOPIC_KEYWORDS` dict: topic name paired with
its keyword list (Python 3.7+ dicts preserve insertion order). -/
abbrev Taxonomy := List (String × List String)

/-- The hard-coded fallback topic name of `assign_topic`. -/
def fallbackTopic : String := "General_Discussion"

/-- Score of one topic: the sum over its keywords of
`combined_text.count(keyword.lower())`. -/
def scoreTopic (text : List Char) (kws : List String) : Nat :=
  (kws.map (fun kw => countOccs (lowerStr kw.toList) text)).sum

/-- The `topic_scores` dict of `assign_topic`: every taxonomy topic except
`'General_Discussion'`, in declared order, with its keyword score. -/
def topicScores (tk : Taxonomy) (text : List Char) : List (String × Nat) :=
  (tk.filter (fun p => p.1 ≠ fallbackTopic)).map (fun p => (p.1, scoreTopic text p.2))

/-- `max(topic_scores.values())` (0 when there are no scores; Python would
raise there, but `assign_topic` only reads the max of a non-empty dict). -/
def maxScore (scores : List (String × Nat)) : Nat :=
  (scores.map Prod.snd).foldr max 0

/-- `max(topic_scores, key=topic_scores.get)`: the first key attaining the
maximum value, in insertion order (Python's `max` keeps the first maximum). -/
def firstMaxKey (scores : List (String × Nat)) : Option String :=
  (scores.find? (fun p => p.2 = maxScore scores)).map Prod.fst

/-- `clean_text(f"{title} {selftext}")`. -/
def combinedText (title selftext : List Char) : List Char :=
  clean_text (some (title ++ ' ' :: selftext))

/-- `assign_topic(title, selftext, topic_keywords)`: keyword-score the
normalised `f"{title} {selftext}"` and pick the best-scoring non-fallback
topic, or `'General_Discussion'` when no keyword matched
(`topic_scores and max(topic_scores.values()) > 0`). -/
def assign_topic (title selftext : List Char) (tk : Taxonomy) : String :=
  let scores := topicScores tk (combinedText title selftext)
  if scores ≠ [] ∧ 0 < maxScore scores then
    (firstMaxKey scores).getD fallbackTopic
  else fallbackTopic

/-- The `TOPIC_KEYWORDS` configuration of `topic-modeling-script.py`,
in its declared order. -/
def TOPIC_KEYWORDS : Taxonomy :=
  [("Traffic", ["traffic", "jam", "road", "vehicle", "auto", "metro", "bus", "bmtc",
      "congestion", "commute", "driving", "parking", "signal", "flyover", "pothole"]),
   ("Housing_Rent", ["rent", "flat", "apartment", "pg", "accommodation", "landlord",
      "housing", "room", "society", "broker", "deposit", "lease"]),
   ("Food", ["food", "restaurant", "cafe", "dosa", "idli", "biryani", "pub", "brewery",
      "eat", "dining", "menu", "dish", "breakfast", "lunch", "dinner"]),
   ("Infrastructure", ["water", "electricity", "power", "bescom", "bwssb", "bbmp",
      "civic", "garbage", "drainage", "sewage", "lake", "park", "construction"]),
   ("Jobs_Career", ["job", "career", "salary", "company", "interview", "hiring",
      "work", "office", "wfh", "startup", "layoff", "switch", "package"]),
   ("Safety_Law", ["police", "crime", "theft", "scam", "harassment", "safety",
      "security", "assault", "fraud", "fir", "complaint", "incident"]),
   ("Culture_Events", ["festival", "event", "concert", "diwali", "holi", "rajyotsava",
      "kannada", "culture", "music", "art", "movie", "theater"]),
   ("Language", ["kannada", "hindi", "language", "tamil", "telugu", "malayalam",
      "speak", "learn", "local", "native", "imposition"]),
   ("Social_Life", ["friend", "dating", "relationship", "lonely", "meetup", "social",
      "group", "hobby", "activity", "weekend", "hangout"]),
   ("Health", ["hospital", "doctor", "medical", "health", "clinic", "emergency",
      "covid", "vaccine", "medicine", "treatment", "mental"]),
   ("Weather", ["rain", "weather", "monsoon", "temperature", "climate", "flood",
      "summer", "winter", "season"]),
   ("Politics", ["government", "election", "vote", "bjp", "congress", "politician",
      "cm", "minister", "policy", "corruption"]),
   ("Pets_Animals", ["dog", "cat", "pet", "animal", "adopt", "stray", "rescue",
      "kitten", "puppy", "vet"]),
   ("Education", ["college", "university", "school", "education", "student", "exam",
      "admission", "course", "degree", "study"]),
   ("General_Discussion", [])]

/-! ## The corpus as seen by `dashboard-data-generator.py` -/

/-- A calendar date, standing for the `created_utc` timestamp (the generator
only uses its date part via `strftime('%Y-%m-%d')` and `dt.year`). -/
structure Date where
  year : Int
  month : Nat
  day : Nat
deriving DecidableEq, Repr

/-- A classified post: one row of `bangalore_with_topics.csv`. -/
structure Post where
  title : List Char
  score : Int
  num_comments : Int
  created_utc : Date
  topic : String
deriving DecidableEq, Repr

/-- `df['year'] = df['created_utc'].dt.year`. -/
def Post.year (p : Post) : Int := p.created_utc.year

/-- Scan of `pd.Series.unique()`: emit each value not seen before. -/
def uniqFirstAux {α : Type} [DecidableEq α] (seen : List α) : List α → List α
  | [] => []
  | a :: l => if a ∈ seen then uniqFirstAux seen l else a :: uniqFirstAux (a :: seen) l

/-- `pd.Series.unique()`: distinct values in first-occurrence order. -/
def uniqFirst {α : Type} [DecidableEq α] (l : List α) : List α :=
  uniqFirstAux [] l

/-- Stable insertion (descending by `key`) for Python `sorted(reverse=True)`
and pandas descending sorts: an element is placed before the equal-keyed
elements that follow it in the original list. -/
def insertDescBy {α : Type} (key : α → ℚ) (x : α) : List α → List α
  | [] => [x]
  | y :: ys => if key y ≤ key x then x :: y :: ys else y :: insertDescBy key x ys

/-- Stable descending sort by a rational key. -/
def sortDescBy {α : Type} (key : α → ℚ) : List α → List α
  | [] => []
  | x :: xs => insertDescBy key x (sortDescBy key xs)

/-- Stable ascending insertion on integers (`sorted(...)`). -/
def insertAscInt (x : Int) : List Int → List Int
  | [] => [x]
  | y :: ys => if x ≤ y then x :: y :: ys else y :: insertAscInt x ys

/-- `sorted(...)` on integers, ascending. -/
def sortAscInt : List Int → List Int
  | [] => []
  | x :: xs => insertAscInt x (sortAscInt xs)

/-- `pd.Series.value_counts()`: distinct values with their counts, sorted by
count descending. -/
def valueCounts (l : List String) : List (String × Nat) :=
  sortDescBy (fun p => (p.2 : ℚ)) ((uniqFirst l).map (fun t => (t, l.count t)))

/-- `topic.replace('_', ' & ')`: every underscore becomes `' & '`. -/
def displayName (t : String) : String :=
  String.mk (t.toList.flatMap (fun c => if c = '_' then " & ".toList else [c]))

/-! ## `generate_topic_trends` -/

/-- One per-year record of the yearly trend report: the `'year'` key plus one
count per topic key, in the order the keys were inserted. -/
structure TrendRec where
  year : Int
  counts : List (String × Nat)
deriving DecidableEq, Repr

/-- `generate_topic_trends(df)`: for each year of the data (ascending), the
count per topic for every topic that occurs anywhere in the data, in
first-occurrence order (`df['topic'].unique()`).  The code computes
`topic_clean = topic.replace('_', ' ')` but never uses it; the raw topic is
the key. -/
def generate_topic_trends (df : List Post) : List TrendRec :=
  (sortAscInt (uniqFirst (df.map (·.year)))).map (fun y =>
    ⟨y, (uniqFirst (df.map (·.topic))).map (fun t =>
      (t, df.countP (fun p => decide (p.year = y) && decide (p.topic = t))))⟩)

/-! ## `generate_topic_distribution` -/

/-- A JSON scalar of the dashboard document. -/
inductive JVal where
  | s : String → JVal
  | n : Nat → JVal
deriving DecidableEq, Repr

/-- The static `topic_colors` table of `generate_topic_distribution`. -/
def topic_colors : List (String × String) :=
  [("Traffic", "#ef4444"), ("Housing_Rent", "#f59e0b"), ("Food", "#10b981"),
   ("Infrastructure", "#3b82f6"), ("Jobs_Career", "#8b5cf6"), ("Safety_Law", "#ec4899"),
   ("Culture_Events", "#14b8a6"), ("Language", "#f97316"), ("Social_Life", "#06b6d4"),
   ("Health", "#84cc16"), ("Weather", "#a855f7"), ("Politics", "#f43f5e"),
   ("Pets_Animals", "#22c55e"), ("Education", "#eab308"), ("General_Discussion", "#6b7280")]

/-- `topic_colors.get(topic, '#6b7280')`. -/
def colorOf (t : String) : String :=
  ((topic_colors.find? (fun p => decide (p.1 = t))).map Prod.snd).getD "#6b7280"

/-- `generate_topic_distribution(df)`: one dict per topic present in the
data, in descending-count order, with exactly the keys `name` (display
name), `value` (count) and `color`. -/
def generate_topic_distribution (df : List Post) : List (List (String × JVal)) :=
  (valueCounts (df.map (·.topic))).map (fun p =>
    [("name", JVal.s (displayName p.1)), ("value", JVal.n p.2),
     ("color", JVal.s (colorOf p.1))])

/-- Observer for the distribution report: the number stored under the
`value` key of an entry (0 when absent). -/
def valueOfEntry (e : List (String × JVal)) : Nat :=
  match e.lookup "value" with
  | some (JVal.n k) => k
  | _ => 0

/-! ## `generate_top_posts` -/

/-- One entry of the top-posts report. -/
structure TopPost where
  topic : String
  title : List Char
  year : Int
  score : Int
  num_comments : Int
deriving DecidableEq, Repr

/-- `post['title'][:100] + ('...' if len(post['title']) > 100 else '')`. -/
def truncTitle (t : List Char) : List Char :=
  t.take 100 ++ (if 100 < t.length then "...".toList else [])

/-- `df['topic'].value_counts().head(8).index`: the 8 most frequent topics. -/
def topTopics8 (df : List Post) : List String :=
  ((valueCounts (df.map (·.topic))).take 8).map Prod.fst

/-- `df[df['topic'] == t].nlargest(3, 'score')`: the three highest-scoring
posts of a topic (ties keep the earlier row, pandas `keep='first'`). -/
def nlargest3 (df : List Post) (t : String) : List Post :=
  (sortDescBy (fun p => (p.score : ℚ)) (df.filter (fun p => decide (p.topic = t)))).take 3

/-- The dict built for one selected post. -/
def mkTopPost (p : Post) : TopPost :=
  ⟨p.topic, truncTitle p.title, p.year, p.score, p.num_comments⟩

/-- `generate_top_posts(df, n)`: up to 3 top-scoring posts from each of the 8
most frequent topics, pooled, sorted by score descending, truncated to `n`. -/
def generate_top_posts (df : List Post) (n : Nat) : List TopPost :=
  (sortDescBy (fun e => (e.score : ℚ))
    ((topTopics8 df).flatMap (fun t => (nlargest3 df t).map mkTopPost))).take n

/-! ## `generate_insights`: summary statistics and growth detection.
`float` results are modelled over `ℚ`; pandas `NaN` is `Option.none`; a
raised exception is `Except.error`. -/

/-- Python `round(x, 1)`: round to one decimal place, ties to even. -/
def roundHalfEven (q : ℚ) : ℤ :=
  let n := ⌊q⌋
  if q - n < 1 / 2 then n
  else if (1 : ℚ) / 2 < q - n then n + 1
  else if n % 2 = 0 then n else n + 1

/-- `round(x, 1)` as a rational. -/
def roundQ1 (q : ℚ) : ℚ := (roundHalfEven (q * 10) : ℚ) / 10

/-- `insights['total_posts'] = int(len(df))`. -/
def totalPosts (df : List Post) : Nat := df.length

/-- Lexicographic order on dates (how pandas compares timestamps). -/
def dateLE (a b : Date) : Bool :=
  decide (a.year < b.year) ||
    (decide (a.year = b.year) &&
      (decide (a.month < b.month) || (decide (a.month = b.month) && decide (a.day ≤ b.day))))

/-- Minimum of a non-empty list of dates. -/
def minDate (d : Date) (l : List Date) : Date :=
  l.foldl (fun acc x => if dateLE x acc then x else acc) d

/-- Maximum of a non-empty list of dates. -/
def maxDate (d : Date) (l : List Date) : Date :=
  l.foldl (fun acc x => if dateLE acc x then x else acc) d

/-- Zero-pad to two digits (`%m`, `%d`). -/
def pad2 (n : Nat) : String := if n < 10 then "0" ++ toString n else toString n

/-- `strftime('%Y-%m-%d')` (years of the corpus have four digits). -/
def fmtDate (d : Date) : String :=
  toString d.year ++ "-" ++ pad2 d.month ++ "-" ++ pad2 d.day

/-- `insights['date_range']`: `df['created_utc'].min()/.max()` formatted.  On
an empty corpus pandas yields `NaT` and `NaT.strftime` raises `ValueError`,
modelled as `Except.error`. -/
def dateRange (df : List Post) : Except String (String × String) :=
  match df.map (·.created_utc) with
  | [] => Except.error "NaTType does not support strftime"
  | d :: ds => Except.ok (fmtDate (minDate d ds), fmtDate (maxDate d ds))

/-- `round(df['score'].mean(), 1)`: the mean of an empty series is `NaN`
(`none`); `round` passes `NaN` through unchanged. -/
def averageScore (df : List Post) : Option ℚ :=
  if df.isEmpty then none
  else some (roundQ1 ((df.map (fun p => (p.score : ℚ))).sum / (df.length : ℚ)))

/-- `round(df['num_comments'].mean(), 1)`, as `averageScore`. -/
def averageComments (df : List Post) : Option ℚ :=
  if df.isEmpty then none
  else some (roundQ1 ((df.map (fun p => (p.num_comments : ℚ))).sum / (df.length : ℚ)))

/-- `df.groupby('topic')['num_comments'].sum().sort_values(ascending=False).head(5)`,
with the display-name dicts built from it.  Empty corpus: empty list. -/
def mostDiscussed (df : List Post) : List (String × Int) :=
  ((sortDescBy (fun p : String × Int => (p.2 : ℚ))
    ((uniqFirst (df.map (·.topic))).map (fun t =>
      (t, ((df.filter (fun p => decide (p.topic = t))).map (·.num_comments)).sum)))).take 5).map
    (fun p => (displayName p.1, p.2))

/-- `insights['top_topic']`: name, count and percentage of the most frequent
topic.  `value_counts().index[0]` raises `IndexError` on an empty corpus. -/
def topTopicInfo (df : List Post) : Except String (String × Nat × ℚ) :=
  match valueCounts (df.map (·.topic)) with
  | [] => Except.error "index 0 is out of bounds"
  | (t, c) :: _ => Except.ok (displayName t, c, roundQ1 (((c : ℚ) / (df.length : ℚ)) * 100))

/-- `df['year'].median()`: middle of the sorted years, mean of the two middle
values when the count is even (0 for an empty corpus, where pandas gives
`NaN`; the value is never used on an empty corpus here). -/
def medianQ (l : List Int) : ℚ :=
  let s := sortAscInt l
  let n := s.length
  if n = 0 then 0
  else if n % 2 = 1 then ((s.getD (n / 2) 0 : ℤ) : ℚ)
  else (((s.getD (n / 2 - 1) 0 : ℤ) : ℚ) + ((s.getD (n / 2) 0 : ℤ) : ℚ)) / 2

/-- The median year splitting the corpus into halves. -/
def medianYear (df : List Post) : ℚ := medianQ (df.map (·.year))

/-- `len(first_half[first_half['topic'] == topic])`: posts with
`year <= midpoint_year` and the given topic. -/
def firstCount (df : List Post) (t : String) : Nat :=
  df.countP (fun p => decide ((p.year : ℚ) ≤ medianYear df) && decide (p.topic = t))

/-- `len(second_half[second_half['topic'] == topic])`: posts with
`year > midpoint_year` and the given topic. -/
def secondCount (df : List Post) (t : String) : Nat :=
  df.countP (fun p => decide (medianYear df < (p.year : ℚ)) && decide (p.topic = t))

/-- `((second_count - first_count) / first_count) * 100`. -/
def growthQ (df : List Post) (t : String) : ℚ :=
  (((secondCount df t : ℚ) - (firstCount df t : ℚ)) / (firstCount df t : ℚ)) * 100

/-- One entry of `insights['trending_topics']`. -/
structure GrowthEntry where
  topic : String
  growth_rate : ℚ
  trend : String
deriving DecidableEq, Repr

/-- The growth/trending detection of `generate_insights`: topics with more
than 5 first-half posts and `|growth| > 30`, sorted by `|growth_rate|`
descending (on the stored, rounded rate), at most 5 kept. -/
def trendingTopics (df : List Post) : List GrowthEntry :=
  (sortDescBy (fun e => |e.growth_rate|)
    ((uniqFirst (df.map (·.topic))).filterMap (fun t =>
      if 5 < firstCount df t then
        if 30 < |growthQ df t| then
          some ⟨displayName t, roundQ1 (growthQ df t),
            if 0 < growthQ df t then "up" else "down"⟩
        else none
      else none))).take 5

/-- `df['year'].value_counts().sort_index()`. -/
def postsPerYear (df : List Post) : List (Int × Nat) :=
  (sortAscInt (uniqFirst (df.map (·.year)))).map (fun y =>
    (y, df.countP (fun p => decide (p.year = y))))

/-- The `insights` dict, fields in insertion order. -/
structure Insights where
  total_posts : Nat
  date_range : String × String
  years_analyzed : Nat
  topics_tracked : Nat
  top_topic : String × Nat × ℚ
  trending_topics : List GrowthEntry
  posts_per_year : List (Int × Nat)
  average_score : Option ℚ
  average_comments : Option ℚ
  most_discussed : List (String × Int)
deriving DecidableEq, Repr

/-- `generate_insights(df)`: the summary reductions in source order.  The
first raising computation on an empty corpus is the `date_range` formatting,
then the `top_topic` indexing; the averages would yield `NaN` and
`total_posts` plain `0`. -/
def generate_insights (df : List Post) : Except String Insights := do
  let dr ← dateRange df
  let tt ← topTopicInfo df
  pure ⟨totalPosts df, dr, (uniqFirst (df.map (·.year))).length,
    (uniqFirst (df.map (·.topic))).length, tt, trendingTopics df,
    postsPerYear df, averageScore df, averageComments df, mostDiscussed df⟩

/-! ## Concrete inputs used by witnesses and counterexamples -/

/-- A three-topic taxonomy in declared order, fallback last. -/
def taxTie : Taxonomy :=
  [("Traffic", ["jam"]), ("Food", ["dosa"]), ("General_Discussion", [])]

/-- A one-post corpus whose only topic is `Food` (a taxonomy topic, but not
the first-declared one). -/
def dfFood : List Post :=
  [⟨"f1".toList, 10, 3, ⟨2020, 6, 15⟩, "Food"⟩]

/-- A two-post corpus over two years and two topics. -/
def dfPair : List Post :=
  [⟨"a".toList, 5, 2, ⟨2020, 1, 10⟩, "Traffic"⟩,
   ⟨"b".toList, 7, 4, ⟨2021, 3, 20⟩, "Food"⟩]

/-- The 2020 record that `generate_topic_trends` produces for `dfPair`. -/
def recPair : TrendRec := ⟨2020, [("Traffic", 1), ("Food", 0)]⟩

/-! # Theorems

Helper lemmas first, then one theorem per claim (witnesses and
counterexamples beside their claim). -/

/-! ## Classifier lemmas -/

theorem le_maxScore (scores : List (String × Nat)) :
    ∀ p ∈ scores, p.2 ≤ maxScore scores := by
  induction scores with
  | nil => intro p hp; cases hp
  | cons x xs ih =>
    intro p hp
    rcases List.mem_cons.mp hp with rfl | hp
    · simp only [maxScore, List.map_cons, List.foldr_cons]
      exact Nat.le_max_left _ _
    · calc p.2 ≤ maxScore xs := ih p hp
        _ ≤ maxScore (x :: xs) := by
          simp only [maxScore, List.map_cons, List.foldr_cons]
          exact Nat.le_max_right _ _

theorem maxScore_nil : maxScore [] = 0 := rfl

theorem maxScore_mem (scores : List (String × Nat)) (h : scores ≠ []) :
    maxScore scores ∈ scores.map Prod.snd := by
  induction scores with
  | nil => exact absurd rfl h
  | cons x xs ih =>
    by_cases hxs : xs = []
    · subst hxs
      simp [maxScore]
    · have hm : maxScore (x :: xs) = max x.2 (maxScore xs) := by
        simp [maxScore]
      rcases Nat.le_total x.2 (maxScore xs) with hle | hle
      · rw [hm, Nat.max_eq_right hle]
        exact List.mem_cons_of_mem _ (ih hxs)
      · rw [hm, Nat.max_eq_left hle]
        exact List.mem_cons_self _ _

theorem topicScores_fst_sub (tk : Taxonomy) (text : List Char) :
    ∀ p ∈ topicScores tk text, p.1 ∈ tk.map Prod.fst ∧ p.1 ≠ fallbackTopic := by
  intro p hp
  simp only [topicScores, List.mem_map] at hp
  obtain ⟨q, hq, rfl⟩ := hp
  have hq' := List.mem_filter.mp hq
  constructor
  · exact List.mem_map.mpr ⟨q, hq'.1, rfl⟩
  · simpa using hq'.2

/-- If the maximum keyword score is positive, `assign_topic` returns the
first topic of the score list (taxonomy declared order, fallback skipped)
attaining the maximum, together with a decomposition that certifies
firstness. -/
theorem assign_topic_first_max (tk : Taxonomy) (title selftext : List Char)
    (hpos : 0 < maxScore (topicScores tk (combinedText title selftext))) :
    ∃ pre post,
      topicScores tk (combinedText title selftext) =
        pre ++ (assign_topic title selftext tk,
          maxScore (topicScores tk (combinedText title selftext))) :: post ∧
      ∀ q ∈ pre, q.2 < maxScore (topicScores tk (combinedText title selftext)) := by
  set scores := topicScores tk (combinedText title selftext) with hsc
  have hne : scores ≠ [] := by
    intro h
    rw [h] at hpos
    exact absurd hpos (by simp [maxScore_nil])
  have hmem : maxScore scores ∈ scores.map Prod.snd := maxScore_mem scores hne
  obtain ⟨p₀, hp₀, hp₀v⟩ := List.mem_map.mp hmem
  have hsome : (scores.find? (fun p => p.2 = maxScore scores)).isSome := by
    rw [List.find?_isSome]
    exact ⟨p₀, hp₀, by simp [hp₀v]⟩
  obtain ⟨b, hb⟩ := Option.isSome_iff_exists.mp hsome
  obtain ⟨hbv, pre, post, hdec, hpre⟩ := List.find?_eq_some.mp hb
  have hassign : assign_topic title selftext tk = b.1 := by
    unfold assign_topic
    rw [← hsc, if_pos ⟨hne, hpos⟩]
    simp [firstMaxKey, hb]
  refine ⟨pre, post, ?_, ?_⟩
  · rw [hassign]
    have hv : b.2 = maxScore scores := by
      have h' := hbv
      simp only [decide_eq_true_eq] at h'
      exact h'
    rw [show (b.1, maxScore scores) = b from by rw [← hv]]
    exact hdec
  · intro q hq
    have hle : q.2 ≤ maxScore scores := by
      apply le_maxScore
      rw [hdec]
      exact List.mem_append_left _ hq
    have hne' : q.2 ≠ maxScore scores := by
      have := hpre q hq
      simpa using this
    exact Nat.lt_of_le_of_ne hle hne'

theorem assign_topic_mem (tk : Taxonomy) (hGD : fallbackTopic ∈ tk.map Prod.fst)
    (title selftext : List Char) :
    assign_topic title selftext tk ∈ tk.map Prod.fst := by
  by_cases hpos : 0 < maxScore (topicScores tk (combinedText title selftext))
  · obtain ⟨pre, post, hdec, -⟩ := assign_topic_first_max tk title selftext hpos
    have hmem : (assign_topic title selftext tk,
        maxScore (topicScores tk (combinedText title selftext))) ∈
        topicScores tk (combinedText title selftext) := by
      have h0 := List.mem_append_right pre
        (List.mem_cons_self (assign_topic title selftext tk,
          maxScore (topicScores tk (combinedText title selftext))) post)
      rw [← hdec] at h0
      exact h0
    exact (topicScores_fst_sub tk _ _ hmem).1
  · unfold assign_topic
    rw [if_neg (fun hc => hpos hc.2)]
    exact hGD

theorem assign_topic_fallback_iff (tk : Taxonomy) (title selftext : List Char) :
    assign_topic title selftext tk = fallbackTopic ↔
      ∀ pr ∈ topicScores tk (combinedText title selftext), pr.2 = 0 := by
  set scores := topicScores tk (combinedText title selftext) with hsc
  constructor
  · intro hfb
    by_cases hpos : 0 < maxScore scores
    · exfalso
      obtain ⟨pre, post, hdec, -⟩ := assign_topic_first_max tk title selftext hpos
      have hmem : (assign_topic title selftext tk, maxScore scores) ∈ scores := by
        have h0 := List.mem_append_right pre
          (List.mem_cons_self (assign_topic title selftext tk, maxScore scores) post)
        rw [hsc] at h0 ⊢
        rw [← hdec] at h0
        exact h0
      have := (topicScores_fst_sub tk _ _ hmem).2
      exact this hfb
    · intro pr hpr
      have hle := le_maxScore scores pr hpr
      omega
  · intro hzero
    have hmax : maxScore scores = 0 := by
      by_contra hne
      have hpos : 0 < maxScore scores := Nat.pos_of_ne_zero hne
      have hne' : scores ≠ [] := by
        intro h
        rw [h] at hpos
        exact absurd hpos (by simp [maxScore_nil])
      obtain ⟨p₀, hp₀, hp₀v⟩ := List.mem_map.mp (maxScore_mem scores hne')
      have := hzero p₀ hp₀
      omega
    unfold assign_topic
    rw [if_neg]
    intro hc
    rw [← hsc, hmax] at hc
    exact absurd hc.2 (by omega)

/-- C2: for every title and body, `assign_topic` returns a topic of the
configured `TOPIC_KEYWORDS` taxonomy, and it returns the fallback
`'General_Discussion'` iff every per-topic keyword score is zero. -/
theorem assign_topic_in_taxonomy_and_fallback_iff :
    ∀ title selftext : List Char,
      assign_topic title selftext TOPIC_KEYWORDS ∈ TOPIC_KEYWORDS.map Prod.fst ∧
      (assign_topic title selftext TOPIC_KEYWORDS = fallbackTopic ↔
        ∀ pr ∈ topicScores TOPIC_KEYWORDS (combinedText title selftext), pr.2 = 0) :=
  fun title selftext =>
    ⟨assign_topic_mem TOPIC_KEYWORDS (by decide) title selftext,
     assign_topic_fallback_iff TOPIC_KEYWORDS title selftext⟩

/-- C1 (amended): `assign_topic` is deterministic, and whenever the maximum
keyword score is positive the returned topic is the first entry of the
score list — the taxonomy's declared order with the fallback skipped —
attaining the maximum: every earlier entry scores strictly less.  (When the
maximum is zero the fallback is returned instead, even if several topics
tie at zero; see the counterexample.) -/
theorem assign_topic_deterministic_tiebreak :
    ∀ (tk : Taxonomy) (title selftext : List Char),
      (∀ title2 selftext2 : List Char, title2 = title → selftext2 = selftext →
        assign_topic title2 selftext2 tk = assign_topic title selftext tk) ∧
      (0 < maxScore (topicScores tk (combinedText title selftext)) →
        ∃ pre post,
          topicScores tk (combinedText title selftext) =
            pre ++ (assign_topic title selftext tk,
              maxScore (topicScores tk (combinedText title selftext))) :: post ∧
          ∀ q ∈ pre, q.2 < maxScore (topicScores tk (combinedText title selftext))) :=
  fun tk title selftext =>
    ⟨fun _ _ h1 h2 => by rw [h1, h2], assign_topic_first_max tk title selftext⟩

/-- C1 (counterexample to the claim as stated): with the empty title and
body against `taxTie`, the two scored topics `Traffic` and `Food` both
attain the maximum keyword score (zero), the first of them in the
taxonomy's declared order is `Traffic`, yet `assign_topic` returns
`General_Discussion`, not `Traffic`. -/
theorem assign_topic_tie_zero_counterexample :
    (topicScores taxTie (combinedText [] [])).map Prod.snd = [0, 0] ∧
    maxScore (topicScores taxTie (combinedText [] [])) = 0 ∧
    (taxTie.map Prod.fst).head? = some "Traffic" ∧
    assign_topic [] [] taxTie = "General_Discussion" ∧
    ("General_Discussion" : String) ≠ "Traffic" := by
  have hct : combinedText [] [] = [] := by
    simp [combinedText, clean_text, lowerStr, toLowerChar, urlSub, httpAt, wwwAt,
      toSpaces, splitWS, isSpc, isAlphaChar, joinWords, nonspaceLen]
  refine ⟨?_, ?_, by decide, ?_, by decide⟩
  · rw [hct]
    simp [topicScores, taxTie, fallbackTopic, scoreTopic, countOccs, lowerStr, toLowerChar]
  · rw [hct]
    simp [maxScore, topicScores, taxTie, fallbackTopic, scoreTopic, countOccs,
      lowerStr, toLowerChar]
  · unfold assign_topic
    rw [hct]
    simp [topicScores, taxTie, fallbackTopic, scoreTopic, countOccs, lowerStr,
      toLowerChar, maxScore]

/-! ## List helper lemmas: `unique`, sorting, counting -/

theorem mem_uniqFirstAux {α : Type} [DecidableEq α] (l : List α) :
    ∀ (seen : List α) (x : α), x ∈ uniqFirstAux seen l ↔ (x ∈ l ∧ x ∉ seen) := by
  induction l with
  | nil => intro seen x; simp [uniqFirstAux]
  | cons a l ih =>
    intro seen x
    by_cases ha : a ∈ seen
    · rw [uniqFirstAux, if_pos ha, ih]
      constructor
      · rintro ⟨hx, hs⟩
        exact ⟨List.mem_cons_of_mem _ hx, hs⟩
      · rintro ⟨hx, hs⟩
        rcases List.mem_cons.mp hx with rfl | hx
        · exact absurd ha hs
        · exact ⟨hx, hs⟩
    · rw [uniqFirstAux, if_neg ha]
      constructor
      · intro hmem
        rcases List.mem_cons.mp hmem with rfl | hmem
        · exact ⟨List.mem_cons_self _ _, ha⟩
        · obtain ⟨hx, hs⟩ := (ih (a :: seen) x).mp hmem
          exact ⟨List.mem_cons_of_mem _ hx, fun hxs => hs (List.mem_cons_of_mem _ hxs)⟩
      · rintro ⟨hx, hs⟩
        rcases List.mem_cons.mp hx with rfl | hx
        · exact List.mem_cons_self _ _
        · by_cases hxa : x = a
          · subst hxa
            exact List.mem_cons_self _ _
          · refine List.mem_cons_of_mem _ ((ih (a :: seen) x).mpr ⟨hx, ?_⟩)
            intro hxs
            rcases List.mem_cons.mp hxs with h1 | h1
            · exact hxa h1
            · exact hs h1

theorem mem_uniqFirst {α : Type} [DecidableEq α] (l : List α) (x : α) :
    x ∈ uniqFirst l ↔ x ∈ l := by
  simp [uniqFirst, mem_uniqFirstAux]

theorem nodup_uniqFirstAux {α : Type} [DecidableEq α] (l : List α) :
    ∀ seen : List α, (uniqFirstAux seen l).Nodup := by
  induction l with
  | nil => intro seen; simp [uniqFirstAux]
  | cons a l ih =>
    intro seen
    by_cases ha : a ∈ seen
    · rw [uniqFirstAux, if_pos ha]
      exact ih seen
    · rw [uniqFirstAux, if_neg ha]
      refine List.nodup_cons.mpr ⟨?_, ih _⟩
      intro hmem
      exact ((mem_uniqFirstAux l _ a).mp hmem).2 (List.mem_cons_self _ _)

theorem nodup_uniqFirst {α : Type} [DecidableEq α] (l : List α) :
    (uniqFirst l).Nodup :=
  nodup_uniqFirstAux l []

theorem perm_insertDescBy {α : Type} (key : α → ℚ) (x : α) (l : List α) :
    List.Perm (insertDescBy key x l) (x :: l) := by
  induction l with
  | nil => exact List.Perm.refl _
  | cons y ys ih =>
    rw [insertDescBy]
    by_cases hxy : key y ≤ key x
    · rw [if_pos hxy]
    · rw [if_neg hxy]
      exact (ih.cons y).trans (List.Perm.swap x y ys)

theorem perm_sortDescBy {α : Type} (key : α → ℚ) (l : List α) :
    List.Perm (sortDescBy key l) l := by
  induction l with
  | nil => exact List.Perm.refl _
  | cons x xs ih =>
    exact (perm_insertDescBy key x (sortDescBy key xs)).trans (ih.cons x)

theorem pairwise_insertDescBy {α : Type} (key : α → ℚ) (x : α) (l : List α)
    (h : l.Pairwise (fun a b => key b ≤ key a)) :
    (insertDescBy key x l).Pairwise (fun a b => key b ≤ key a) := by
  induction l with
  | nil => simp [insertDescBy]
  | cons y ys ih =>
    rcases List.pairwise_cons.mp h with ⟨hy, hys⟩
    rw [insertDescBy]
    by_cases hxy : key y ≤ key x
    · rw [if_pos hxy]
      refine List.pairwise_cons.mpr ⟨?_, h⟩
      intro b hb
      rcases List.mem_cons.mp hb with rfl | hb
      · exact hxy
      · exact le_trans (hy b hb) hxy
    · rw [if_neg hxy]
      refine List.pairwise_cons.mpr ⟨?_, ih hys⟩
      intro b hb
      rcases List.mem_cons.mp ((perm_insertDescBy key x ys).mem_iff.mp hb) with rfl | hb
      · exact le_of_not_le hxy
      · exact hy b hb

theorem pairwise_sortDescBy {α : Type} (key : α → ℚ) (l : List α) :
    (sortDescBy key l).Pairwise (fun a b => key b ≤ key a) := by
  induction l with
  | nil => simp [sortDescBy]
  | cons x xs ih => exact pairwise_insertDescBy key x _ ih

theorem perm_insertAscInt (x : Int) (l : List Int) :
    List.Perm (insertAscInt x l) (x :: l) := by
  induction l with
  | nil => exact List.Perm.refl _
  | cons y ys ih =>
    rw [insertAscInt]
    by_cases hxy : x ≤ y
    · rw [if_pos hxy]
    · rw [if_neg hxy]
      exact (ih.cons y).trans (List.Perm.swap x y ys)

theorem perm_sortAscInt (l : List Int) : List.Perm (sortAscInt l) l := by
  induction l with
  | nil => exact List.Perm.refl _
  | cons x xs ih =>
    exact (perm_insertAscInt x (sortAscInt xs)).trans (ih.cons x)

theorem pairwise_insertAscInt (x : Int) (l : List Int)
    (h : l.Pairwise (· ≤ ·)) : (insertAscInt x l).Pairwise (· ≤ ·) := by
  induction l with
  | nil => simp [insertAscInt]
  | cons y ys ih =>
    rcases List.pairwise_cons.mp h with ⟨hy, hys⟩
    rw [insertAscInt]
    by_cases hxy : x ≤ y
    · rw [if_pos hxy]
      refine List.pairwise_cons.mpr ⟨?_, h⟩
      intro b hb
      rcases List.mem_cons.mp hb with rfl | hb
      · exact hxy
      · exact le_trans hxy (hy b hb)
    · rw [if_neg hxy]
      refine List.pairwise_cons.mpr ⟨?_, ih hys⟩
      intro b hb
      rcases List.mem_cons.mp ((perm_insertAscInt x ys).mem_iff.mp hb) with rfl | hb
      · exact le_of_not_le hxy
      · exact hy b hb

theorem pairwise_sortAscInt (l : List Int) : (sortAscInt l).Pairwise (· ≤ ·) := by
  induction l with
  | nil => simp [sortAscInt]
  | cons x xs ih => exact pairwise_insertAscInt x _ ih

theorem sum_map_add {α : Type} (f g : α → ℕ) (l : List α) :
    (l.map (fun x => f x + g x)).sum = (l.map f).sum + (l.map g).sum := by
  induction l with
  | nil => simp
  | cons x xs ih =>
    simp only [List.map_cons, List.sum_cons, ih]
    omega

theorem sum_map_indicator {α : Type} [DecidableEq α] (a : α) (ts : List α) :
    (ts.map (fun t => if a = t then (1 : Nat) else 0)).sum = ts.count a := by
  induction ts with
  | nil => simp
  | cons t ts ih =>
    simp only [List.map_cons, List.sum_cons, ih, List.count_cons]
    by_cases hat : a = t
    · simp only [hat, if_pos rfl, beq_self_eq_true, if_pos]
      omega
    · have : (t == a) = false := by
        simp [beq_eq_false_iff_ne, Ne.symm hat]
      simp [hat, this]

theorem countP_year_topic_sum (df : List Post) (y : Int) (ts : List String)
    (hnd : ts.Nodup) (hall : ∀ p ∈ df, p.topic ∈ ts) :
    ((ts.map (fun t =>
      df.countP (fun p => decide (p.year = y) && decide (p.topic = t)))).sum)
      = df.countP (fun p => decide (p.year = y)) := by
  induction df with
  | nil => simp
  | cons p df ih =>
    have hall' : ∀ q ∈ df, q.topic ∈ ts := fun q hq => hall q (List.mem_cons_of_mem _ hq)
    simp only [List.countP_cons]
    rw [show (fun t => List.countP
        (fun p' => decide (p'.year = y) && decide (p'.topic = t)) df +
        if (decide (p.year = y) && decide (p.topic = t)) = true then 1 else 0) =
      (fun t => List.countP
        (fun p' => decide (p'.year = y) && decide (p'.topic = t)) df +
        (if p.year = y then (if p.topic = t then 1 else 0) else 0)) from by
        funext t
        by_cases h1 : p.year = y <;> by_cases h2 : p.topic = t <;> simp [h1, h2]]
    rw [sum_map_add, ih hall']
    by_cases h1 : p.year = y
    · rw [show (fun t => if p.year = y then (if p.topic = t then (1 : Nat) else 0) else 0)
          = (fun t => if p.topic = t then (1 : Nat) else 0) from by
        funext t
        rw [if_pos h1]]
      rw [sum_map_indicator,
        List.count_eq_one_of_mem hnd (hall p (List.mem_cons_self _ _))]
      simp [h1]
    · rw [show (fun t => if p.year = y then (if p.topic = t then (1 : Nat) else 0) else 0)
          = (fun _ => (0 : Nat)) from by
        funext t
        rw [if_neg h1]]
      simp [h1]

/-! ## C7: yearly-trend counts sum to the year's post count -/

/-- C7: for every corpus and every record of the yearly trend report, the
per-topic counts sum to the number of posts whose timestamp falls in that
record's year. -/
theorem trend_record_sum (df : List Post) (r : TrendRec)
    (hr : r ∈ generate_topic_trends df) :
    (r.counts.map Prod.snd).sum =
      df.countP (fun p => decide (p.created_utc.year = r.year)) := by
  simp only [generate_topic_trends, List.mem_map] at hr
  obtain ⟨y, hy, rfl⟩ := hr
  simp only [List.map_map]
  exact countP_year_topic_sum df y _ (nodup_uniqFirst _)
    (fun p hp => (mem_uniqFirst _ _).mpr (List.mem_map.mpr ⟨p, hp, rfl⟩))

/-- C7 witness: the 2020 record of the two-post corpus `dfPair`. -/
theorem trend_record_sum_witness :
    (recPair.counts.map Prod.snd).sum =
      dfPair.countP (fun p => decide (p.created_utc.year = recPair.year)) :=
  trend_record_sum dfPair recPair (by decide)

/-! ## C6: shape of the yearly trend report -/

/-- C6 (amended): the yearly trend report has one record per year present in
the data, in strictly ascending year order; each record carries one count
per topic *that occurs somewhere in the corpus* (in first-occurrence order,
the same for every record), the count being the number of posts with that
year and topic — zero when the topic has no posts in that year.  Taxonomy
topics with no posts at all are absent (see the counterexample). -/
theorem trends_shape (df : List Post) :
    ((generate_topic_trends df).map TrendRec.year).Pairwise (· < ·) ∧
    (∀ y : Int, y ∈ (generate_topic_trends df).map TrendRec.year ↔
      y ∈ df.map Post.year) ∧
    ∀ r ∈ generate_topic_trends df,
      r.counts.map Prod.fst = uniqFirst (df.map Post.topic) ∧
      ∀ pr ∈ r.counts,
        pr.2 = df.countP (fun p => decide (p.year = r.year) && decide (p.topic = pr.1)) := by
  have hmap : (generate_topic_trends df).map TrendRec.year =
      sortAscInt (uniqFirst (df.map Post.year)) := by
    rw [generate_topic_trends, List.map_map]
    exact List.map_id'' (fun y => rfl) _
  refine ⟨?_, ?_, ?_⟩
  · rw [hmap]
    have hnd : (sortAscInt (uniqFirst (df.map Post.year))).Nodup :=
      ((perm_sortAscInt _).nodup_iff).mpr (nodup_uniqFirst _)
    have hle := pairwise_sortAscInt (uniqFirst (df.map Post.year))
    exact (hle.and hnd).imp (fun h => lt_of_le_of_ne h.1 h.2)
  · intro y
    rw [hmap]
    rw [(perm_sortAscInt _).mem_iff, mem_uniqFirst]
  · intro r hr
    simp only [generate_topic_trends, List.mem_map] at hr
    obtain ⟨y, hy, rfl⟩ := hr
    refine ⟨?_, ?_⟩
    · rw [List.map_map]
      exact List.map_id'' (fun t => rfl) _
    · intro pr hpr
      simp only [List.mem_map] at hpr
      obtain ⟨t, ht, rfl⟩ := hpr
      rfl

/-- C6 (counterexample to the claim as stated): on a corpus whose only topic
is `Food`, the single 2020 record has no count for `Traffic`, although
`Traffic` is a topic of the configured taxonomy (indeed its first): records
only carry the topics present in the corpus. -/
theorem trends_missing_taxonomy_topic_counterexample :
    (TOPIC_KEYWORDS.map Prod.fst).head? = some "Traffic" ∧
    "Food" ∈ TOPIC_KEYWORDS.map Prod.fst ∧
    generate_topic_trends dfFood = [⟨2020, [("Food", 1)]⟩] ∧
    ∀ r ∈ generate_topic_trends dfFood, ∀ pr ∈ r.counts, pr.1 ≠ "Traffic" := by
  decide

/-! ## C4: shape of the topic distribution report -/

/-- C4 (amended): the distribution report contains, for each topic with at
least one post, an entry carrying exactly the keys `name` (display name),
`value` (the topic's total count) and `color` (the static table's color,
default for unmapped topics), and the entries are ordered by descending
count.  The whole report is the image of a duplicate-free list of the
corpus's topics, so no other entries occur.  No percentage field is
produced (see the counterexample). -/
theorem distribution_shape (df : List Post) :
    (∀ e ∈ generate_topic_distribution df, e.map Prod.fst = ["name", "value", "color"]) ∧
    (generate_topic_distribution df).Pairwise
      (fun e1 e2 => valueOfEntry e2 ≤ valueOfEntry e1) ∧
    (∀ e ∈ generate_topic_distribution df, ∃ t, t ∈ df.map Post.topic ∧
      0 < (df.map Post.topic).count t ∧
      e = [("name", JVal.s (displayName t)),
           ("value", JVal.n ((df.map Post.topic).count t)),
           ("color", JVal.s (colorOf t))]) ∧
    (∀ t ∈ df.map Post.topic,
      [("name", JVal.s (displayName t)),
       ("value", JVal.n ((df.map Post.topic).count t)),
       ("color", JVal.s (colorOf t))] ∈ generate_topic_distribution df) ∧
    (∃ ts : List String, ts.Nodup ∧ (∀ t, t ∈ ts ↔ t ∈ df.map Post.topic) ∧
      generate_topic_distribution df = ts.map (fun t =>
        [("name", JVal.s (displayName t)),
         ("value", JVal.n ((df.map Post.topic).count t)),
         ("color", JVal.s (colorOf t))])) := by
  have hvc : ∀ p ∈ valueCounts (df.map Post.topic),
      p.1 ∈ df.map Post.topic ∧ p.2 = (df.map Post.topic).count p.1 := by
    intro p hp
    have hp' := (perm_sortDescBy _ _).mem_iff.mp hp
    simp only [List.mem_map] at hp'
    obtain ⟨t, ht, rfl⟩ := hp'
    exact ⟨(mem_uniqFirst _ _).mp ht, rfl⟩
  have hperm : List.Perm ((valueCounts (df.map Post.topic)).map Prod.fst)
      (uniqFirst (df.map Post.topic)) := by
    have h1 := (perm_sortDescBy (fun p : String × Nat => (p.2 : ℚ))
      ((uniqFirst (df.map Post.topic)).map
        (fun t => (t, (df.map Post.topic).count t)))).map Prod.fst
    rw [List.map_map] at h1
    rwa [show (uniqFirst (df.map Post.topic)).map
        (Prod.fst ∘ fun t => (t, (df.map Post.topic).count t)) =
        uniqFirst (df.map Post.topic) from List.map_id'' (fun _ => rfl) _] at h1
  refine ⟨?_, ?_, ?_, ?_, ?_⟩
  · intro e he
    simp only [generate_topic_distribution, List.mem_map] at he
    obtain ⟨p, hp, rfl⟩ := he
    rfl
  · have hpw := pairwise_sortDescBy (fun p : String × Nat => (p.2 : ℚ))
      ((uniqFirst (df.map Post.topic)).map
        (fun t => (t, (df.map Post.topic).count t)))
    refine List.Pairwise.map _ ?_ hpw
    intro a b hab
    have : (b.2 : ℚ) ≤ (a.2 : ℚ) := hab
    have hn : b.2 ≤ a.2 := by exact_mod_cast this
    simpa [valueOfEntry] using hn
  · intro e he
    simp only [generate_topic_distribution, List.mem_map] at he
    obtain ⟨p, hp, rfl⟩ := he
    obtain ⟨hmem, hcnt⟩ := hvc p hp
    refine ⟨p.1, hmem, List.count_pos_iff.mpr hmem, ?_⟩
    rw [← hcnt]
  · intro t ht
    simp only [generate_topic_distribution, List.mem_map]
    refine ⟨(t, (df.map Post.topic).count t), ?_, rfl⟩
    exact (perm_sortDescBy _ _).mem_iff.mpr
      (List.mem_map.mpr ⟨t, (mem_uniqFirst _ _).mpr ht, rfl⟩)
  · refine ⟨(valueCounts (df.map Post.topic)).map Prod.fst, ?_, ?_, ?_⟩
    · exact hperm.nodup_iff.mpr (nodup_uniqFirst _)
    · intro t
      rw [hperm.mem_iff, mem_uniqFirst]
    · simp only [generate_topic_distribution]
      rw [List.map_map]
      apply List.map_congr_left
      intro p hp
      obtain ⟨hmem, hcnt⟩ := hvc p hp
      simp only [Function.comp_apply]
      rw [← hcnt]

/-- C4 (counterexample to the claim as stated): the distribution entry for
the one-post corpus `dfFood` carries exactly the keys `name`, `value` and
`color` — there is no percentage-share field anywhere in the report. -/
theorem distribution_no_percentage_counterexample :
    generate_topic_distribution dfFood =
      [[("name", JVal.s "Food"), ("value", JVal.n 1), ("color", JVal.s "#10b981")]] ∧
    ∀ e ∈ generate_topic_distribution dfFood, ∀ kv ∈ e, kv.1 ≠ "percentage" := by
  decide

/-! ## C5: shape of the trending-topics list -/

/-- C5: the trending list has at most 5 entries, is sorted by the absolute
stored growth rate descending, and every entry comes from a corpus topic
with first-half count above 5 and `|growth| > 30`, carries the rounded
growth rate, and is flagged `up` exactly when the growth rate is
positive. -/
theorem trending_shape (df : List Post) :
    (trendingTopics df).length ≤ 5 ∧
    (trendingTopics df).Pairwise (fun a b => |b.growth_rate| ≤ |a.growth_rate|) ∧
    ∀ e ∈ trendingTopics df, ∃ t, t ∈ df.map Post.topic ∧
      e.topic = displayName t ∧ 5 < firstCount df t ∧ 30 < |growthQ df t| ∧
      e.growth_rate = roundQ1 (growthQ df t) ∧
      (e.trend = "up" ↔ 0 < growthQ df t) := by
  refine ⟨List.length_take_le _ _, ?_, ?_⟩
  · exact List.Pairwise.sublist (List.take_sublist _ _)
      (pairwise_sortDescBy (fun e : GrowthEntry => |e.growth_rate|) _)
  · intro e he
    have he' := List.mem_of_mem_take he
    have he2 := (perm_sortDescBy _ _).mem_iff.mp he'
    simp only [List.mem_filterMap] at he2
    obtain ⟨t, ht, hft⟩ := he2
    by_cases h5 : 5 < firstCount df t
    · rw [if_pos h5] at hft
      by_cases h30 : 30 < |growthQ df t|
      · rw [if_pos h30] at hft
        injection hft with hft
        subst hft
        refine ⟨t, (mem_uniqFirst _ _).mp ht, rfl, h5, h30, rfl, ?_⟩
        by_cases hg : 0 < growthQ df t
        · simp [hg]
        · simp only [if_neg hg]
          constructor
          · intro hud
            exact absurd hud (by decide)
          · intro hg'
            exact absurd hg' hg
      · rw [if_neg h30] at hft
        cases hft
    · rw [if_neg h5] at hft
      cases hft

/-! ## C9: shape of the top-posts report -/

/-- C9: the top-posts report has at most `n` entries, is sorted by score
descending, and every entry is built (`mkTopPost`) from a corpus post whose
topic is among the 8 most frequent and which at most 2 same-topic posts
strictly outscore; its title is cut to 100 characters with `'...'` appended
exactly when the original title is longer than 100 characters. -/
theorem top_posts_shape (df : List Post) (n : Nat) :
    (generate_top_posts df n).length ≤ n ∧
    (generate_top_posts df n).Pairwise (fun a b => b.score ≤ a.score) ∧
    ∀ e ∈ generate_top_posts df n, ∃ p, p ∈ df ∧
      p.topic ∈ topTopics8 df ∧
      e = mkTopPost p ∧
      e.topic = p.topic ∧ e.score = p.score ∧ e.num_comments = p.num_comments ∧
      e.title = p.title.take 100 ++ (if 100 < p.title.length then "...".toList else []) ∧
      df.countP (fun q => decide (q.topic = p.topic) && decide (p.score < q.score)) ≤ 2 := by
  refine ⟨List.length_take_le _ _, ?_, ?_⟩
  · refine List.Pairwise.sublist (List.take_sublist _ _) ?_
    have h := pairwise_sortDescBy (fun e : TopPost => (e.score : ℚ))
      ((topTopics8 df).flatMap (fun t => (nlargest3 df t).map mkTopPost))
    exact h.imp (fun hab => by exact_mod_cast hab)
  · intro e he
    have he' := List.mem_of_mem_take he
    have he2 := (perm_sortDescBy _ _).mem_iff.mp he'
    simp only [List.mem_flatMap] at he2
    obtain ⟨t, ht8, hm⟩ := he2
    obtain ⟨p, hp3, rfl⟩ := List.mem_map.mp hm
    simp only [nlargest3] at hp3
    have hpS := List.mem_of_mem_take hp3
    have hpF := (perm_sortDescBy _ _).mem_iff.mp hpS
    have hpdf : p ∈ df := (List.mem_filter.mp hpF).1
    have hptop : p.topic = t := by
      have h2 := (List.mem_filter.mp hpF).2
      simpa using h2
    subst hptop
    refine ⟨p, hpdf, ht8, rfl, rfl, rfl, rfl, rfl, ?_⟩
    set s := sortDescBy (fun q : Post => (q.score : ℚ))
      (df.filter (fun q => decide (q.topic = p.topic))) with hs
    have hcf : df.countP (fun q => decide (q.topic = p.topic) && decide (p.score < q.score))
        = (df.filter (fun q => decide (q.topic = p.topic))).countP
            (fun q => decide (p.score < q.score)) := by
      rw [List.countP_filter]
      congr 1
      funext q
      rw [Bool.and_comm]
    have hperm : (df.filter (fun q => decide (q.topic = p.topic))).countP
        (fun q => decide (p.score < q.score)) = s.countP (fun q => decide (p.score < q.score)) :=
      ((perm_sortDescBy _ _).countP_eq _).symm
    rw [hcf, hperm]
    rw [← List.take_append_drop 3 s, List.countP_append]
    have hzero : (s.drop 3).countP (fun q => decide (p.score < q.score)) = 0 := by
      rw [List.countP_eq_zero]
      intro q hq
      have hpw := pairwise_sortDescBy (fun q : Post => (q.score : ℚ))
        (df.filter (fun q => decide (q.topic = p.topic)))
      rw [← hs, ← List.take_append_drop 3 s, List.pairwise_append] at hpw
      obtain ⟨-, -, hcross⟩ := hpw
      have hq' := hcross p hp3 q hq
      have hle : q.score ≤ p.score := by exact_mod_cast hq'
      simp only [decide_eq_true_eq]
      omega
    rw [hzero]
    obtain ⟨l1, l2, hsplit⟩ := List.append_of_mem hp3
    rw [hsplit, List.countP_append, List.countP_cons]
    have hlen : l1.length + (1 + l2.length) ≤ 3 := by
      have hlt := List.length_take_le 3 s
      rw [hsplit] at hlt
      simp only [List.length_append, List.length_cons] at hlt
      omega
    have h1 := List.countP_le_length (l := l1) (fun q => decide (p.score < q.score))
    have h2 := List.countP_le_length (l := l2) (fun q => decide (p.score < q.score))
    have hself : (if (decide (p.score < p.score)) = true then 1 else 0) = 0 := by simp
    omega

/-! ## C3: behaviour of the aggregate reductions on an empty corpus -/

/-- C3 (amended): on a corpus of zero posts the insights generation does
fail — `date_range` hits `NaT.strftime` and the top-topic lookup hits
`IndexError` — but not through any explicit empty-corpus guard, and not in
every aggregate: `total_posts` returns 0, `most_discussed` returns an empty
list, the trending list and per-year counts are empty, and the average
score and average comment count evaluate to `NaN` (modelled `none`) rather
than failing. -/
theorem empty_corpus_behaviour :
    dateRange ([] : List Post) = Except.error "NaTType does not support strftime" ∧
    topTopicInfo ([] : List Post) = Except.error "index 0 is out of bounds" ∧
    (∃ msg, generate_insights ([] : List Post) = Except.error msg) ∧
    averageScore ([] : List Post) = none ∧
    averageComments ([] : List Post) = none ∧
    totalPosts ([] : List Post) = 0 ∧
    mostDiscussed ([] : List Post) = [] ∧
    trendingTopics ([] : List Post) = [] ∧
    postsPerYear ([] : List Post) = [] :=
  ⟨rfl, rfl, ⟨"NaTType does not support strftime", rfl⟩, rfl, rfl, rfl, rfl, rfl, rfl⟩

/-- C3 (counterexample to the claim as stated): on zero posts the
average-score and average-comments reductions produce `NaN` (`none`) and
`total_posts` and `most_discussed` return ordinary values — none of them
fails with an explicit error. -/
theorem empty_corpus_no_explicit_error_counterexample :
    averageScore ([] : List Post) = none ∧
    averageComments ([] : List Post) = none ∧
    totalPosts ([] : List Post) = 0 ∧
    mostDiscussed ([] : List Post) = [] :=
  ⟨rfl, rfl, rfl, rfl⟩

/-! ## Character-level lemmas for the text normaliser -/

theorem char_le_iff (a b : Char) : a ≤ b ↔ a.toNat ≤ b.toNat := by
  rw [Char.le_def, UInt32.le_def, BitVec.le_def]
  exact Iff.rfl

theorem toNat_ofNat_valid (n : Nat) (h : n.isValidChar) :
    (Char.ofNat n).toNat = n := by
  rw [Char.ofNat, dif_pos h]
  rfl

theorem toLowerChar_not_upper (c : Char) :
    ¬('A' ≤ toLowerChar c ∧ toLowerChar c ≤ 'Z') := by
  unfold toLowerChar
  by_cases h : 'A' ≤ c ∧ c ≤ 'Z'
  · rw [if_pos h]
    intro hup
    have h1 : c.toNat ≤ 90 := (char_le_iff c 'Z').mp h.2
    have h2 : 65 ≤ c.toNat := (char_le_iff 'A' c).mp h.1
    have hv : (c.toNat + 32).isValidChar := Or.inl (by omega)
    have ht := toNat_ofNat_valid _ hv
    have hup1 := (char_le_iff _ 'Z').mp hup.2
    have hup2 := (char_le_iff 'A' _).mp hup.1
    rw [ht] at hup1
    have : (90 : Nat) = Char.toNat 'Z' := rfl
    omega
  · rw [if_neg h]
    exact h

theorem toLowerChar_fix (c : Char) (hc : ¬('A' ≤ c ∧ c ≤ 'Z')) :
    toLowerChar c = c := if_neg hc

theorem lower_of_alpha_not_upper (c : Char) (ha : isAlphaChar c = true)
    (hu : ¬('A' ≤ c ∧ c ≤ 'Z')) : 'a' ≤ c ∧ c ≤ 'z' := by
  rcases of_decide_eq_true ha with h | h
  · exact h
  · exact absurd h hu

/-! ## URL-regex matching lemmas -/

theorem urlAt_shape (l : List Char) (h : urlAt l = true) :
    (∃ X r, l = 'h' :: 't' :: 't' :: 'p' :: X :: r ∧ isSpc X = false) ∨
    (∃ X r, l = 'w' :: 'w' :: 'w' :: X :: r ∧ isSpc X = false) := by
  rcases l with _ | ⟨c1, _ | ⟨c2, _ | ⟨c3, _ | ⟨c4, _ | ⟨c5, r⟩⟩⟩⟩⟩
  · simp [urlAt, httpAt, wwwAt] at h
  · simp [urlAt, httpAt, wwwAt] at h
  · simp [urlAt, httpAt, wwwAt] at h
  · simp [urlAt, httpAt, wwwAt] at h
  · simp only [urlAt, httpAt, wwwAt, Bool.or_eq_true, Bool.and_eq_true] at h
    rcases h with ⟨h1, h2⟩ | ⟨h1, h2⟩
    · simp at h1 h2
    · right
      simp at h1 h2
      obtain ⟨rfl, rfl, rfl⟩ := h1
      exact ⟨c4, [], rfl, by simpa using h2⟩
  · simp only [urlAt, httpAt, wwwAt, Bool.or_eq_true, Bool.and_eq_true] at h
    rcases h with ⟨h1, h2⟩ | ⟨h1, h2⟩
    · left
      simp at h1 h2
      obtain ⟨rfl, rfl, rfl, rfl⟩ := h1
      exact ⟨c5, r, rfl, by simpa using h2⟩
    · right
      simp at h1 h2
      obtain ⟨rfl, rfl, rfl⟩ := h1
      exact ⟨c4, c5 :: r, rfl, by simpa using h2⟩

theorem urlAt_http (X : Char) (r : List Char) (hX : isSpc X = false) :
    urlAt ('h' :: 't' :: 't' :: 'p' :: X :: r) = true := by
  simp [urlAt, httpAt, hX]

theorem urlAt_www (X : Char) (r : List Char) (hX : isSpc X = false) :
    urlAt ('w' :: 'w' :: 'w' :: X :: r) = true := by
  simp [urlAt, httpAt, wwwAt, hX]

theorem urlAt_append_ext (t z : List Char) (h : urlAt t = true) :
    urlAt (t ++ z) = true := by
  rcases urlAt_shape t h with ⟨X, r, rfl, hX⟩ | ⟨X, r, rfl, hX⟩
  · simpa using urlAt_http X (r ++ z) hX
  · simpa using urlAt_www X (r ++ z) hX

theorem urlAt_sentinel (u z : List Char) (h : urlAt (u ++ ' ' :: z) = true) :
    urlAt (u ++ [' ']) = true := by
  rcases urlAt_shape _ h with ⟨X, r, heq, hX⟩ | ⟨X, r, heq, hX⟩
  · rcases u with _ | ⟨u1, _ | ⟨u2, _ | ⟨u3, _ | ⟨u4, _ | ⟨u5, u'⟩⟩⟩⟩⟩ <;>
      simp only [List.nil_append, List.cons_append, List.cons.injEq] at heq
    · exact absurd heq.1 (by decide)
    · exact absurd heq.2.1 (by decide)
    · exact absurd heq.2.2.1 (by decide)
    · exact absurd heq.2.2.2.1 (by decide)
    · obtain ⟨rfl, -⟩ := heq.2.2.2.2
      exact absurd hX (by simp [isSpc])
    · obtain ⟨rfl, rfl, rfl, rfl, rfl, -⟩ := heq
      exact urlAt_http u5 (u' ++ [' ']) hX
  · rcases u with _ | ⟨u1, _ | ⟨u2, _ | ⟨u3, _ | ⟨u4, u'⟩⟩⟩⟩ <;>
      simp only [List.nil_append, List.cons_append, List.cons.injEq] at heq
    · exact absurd heq.1 (by decide)
    · exact absurd heq.2.1 (by decide)
    · exact absurd heq.2.2.1 (by decide)
    · obtain ⟨rfl, -⟩ := heq.2.2.2
      exact absurd hX (by simp [isSpc])
    · obtain ⟨rfl, rfl, rfl, rfl, -⟩ := heq
      exact urlAt_www u4 (u' ++ [' ']) hX

/-! ## takeWhile / dropWhile helpers -/

theorem head_dropWhile_false (p : Char → Bool) (v : List Char) :
    ∀ d, (v.dropWhile p).head? = some d → p d = false := by
  induction v with
  | nil => intro d hd; simp [List.dropWhile] at hd
  | cons a l ih =>
    intro d hd
    by_cases ha : p a = true
    · rw [List.dropWhile_cons, if_pos ha] at hd
      exact ih d hd
    · rw [List.dropWhile_cons, if_neg ha] at hd
      simp only [List.head?_cons, Option.some.injEq] at hd
      subst hd
      simpa using ha

theorem takeWhile_dropWhile_nil (p : Char → Bool) (v : List Char) :
    (v.dropWhile p).takeWhile p = [] := by
  cases hv : v.dropWhile p with
  | nil => rfl
  | cons d ds =>
    have hd : p d = false := head_dropWhile_false p v d (by rw [hv]; rfl)
    simp [List.takeWhile_cons, hd]

theorem drop_nonspaceLen (v : List Char) :
    v.drop (nonspaceLen v) = v.dropWhile (fun c => !isSpc c) := by
  induction v with
  | nil => rfl
  | cons a l ih =>
    by_cases ha : (!isSpc a) = true
    · simp only [nonspaceLen, List.takeWhile_cons, if_pos ha, List.length_cons,
        List.dropWhile_cons, ha, if_true]
      simpa [nonspaceLen] using ih
    · simp only [nonspaceLen, List.takeWhile_cons, if_neg ha, List.length_nil,
        List.drop_zero, List.dropWhile_cons]

theorem takeWhile_all (p : Char → Bool) (l : List Char)
    (h : ∀ c ∈ l, p c = true) : l.takeWhile p = l := by
  induction l with
  | nil => rfl
  | cons a l ih =>
    rw [List.takeWhile_cons, if_pos (h a (List.mem_cons_self _ _))]
    rw [ih (fun c hc => h c (List.mem_cons_of_mem _ hc))]

theorem dropWhile_all (p : Char → Bool) (l : List Char)
    (h : ∀ c ∈ l, p c = true) : l.dropWhile p = [] := by
  induction l with
  | nil => rfl
  | cons a l ih =>
    rw [List.dropWhile_cons, if_pos (h a (List.mem_cons_self _ _))]
    exact ih (fun c hc => h c (List.mem_cons_of_mem _ hc))

theorem pref_takeWhile (p : Char → Bool) (u : List Char) :
    ∀ z, u <+: z → (∀ c ∈ u, p c = true) → u <+: z.takeWhile p := by
  induction u with
  | nil => intro z _ _; exact ⟨z.takeWhile p, rfl⟩
  | cons a u ih =>
    intro z hp hall
    obtain ⟨t, ht⟩ := hp
    subst ht
    rw [List.cons_append, List.takeWhile_cons,
      if_pos (hall a (List.mem_cons_self _ _))]
    obtain ⟨t', ht'⟩ := ih (u ++ t) ⟨t, rfl⟩ (fun c hc => hall c (List.mem_cons_of_mem _ hc))
    exact ⟨t', by rw [List.cons_append, ht']⟩

/-! ## Structure of `urlSub`'s output -/

/-- The leading non-whitespace run of `urlSub l`'s output is a prefix of the
leading non-whitespace run of `l`: a removal always ends at whitespace. -/
theorem nsp_urlSub : ∀ (n : Nat) (l : List Char), l.length ≤ n →
    (urlSub l).takeWhile (fun c => !isSpc c) <+: l.takeWhile (fun c => !isSpc c) := by
  intro n
  induction n with
  | zero =>
    intro l hl
    have hnil : l = [] := List.length_eq_zero.mp (Nat.le_zero.mp hl)
    subst hnil
    simp only [urlSub]
    exact ⟨[], rfl⟩
  | succ n ih =>
    intro l hl
    cases l with
    | nil =>
      simp only [urlSub]
      exact ⟨[], rfl⟩
    | cons c rest =>
      simp only [urlSub]
      by_cases hh : httpAt (c :: rest) = true
      · rw [if_pos hh]
        have h1 : rest.drop (3 + nonspaceLen (rest.drop 3)) =
            (rest.drop 3).dropWhile (fun c => !isSpc c) := by
          rw [← drop_nonspaceLen (rest.drop 3), List.drop_drop]
        have h2 := ih (rest.drop (3 + nonspaceLen (rest.drop 3))) (by
          have h3 := List.length_drop (3 + nonspaceLen (rest.drop 3)) rest
          simp only [List.length_cons] at hl
          omega)
        rw [h1, takeWhile_dropWhile_nil] at h2
        obtain ⟨t, ht⟩ := h2
        rw [h1, (List.append_eq_nil.mp ht).1]
        exact ⟨_, rfl⟩
      · rw [if_neg hh]
        by_cases hw : wwwAt (c :: rest) = true
        · rw [if_pos hw]
          have h1 : rest.drop (2 + nonspaceLen (rest.drop 2)) =
              (rest.drop 2).dropWhile (fun c => !isSpc c) := by
            rw [← drop_nonspaceLen (rest.drop 2), List.drop_drop]
          have h2 := ih (rest.drop (2 + nonspaceLen (rest.drop 2))) (by
            have h3 := List.length_drop (2 + nonspaceLen (rest.drop 2)) rest
            simp only [List.length_cons] at hl
            omega)
          rw [h1, takeWhile_dropWhile_nil] at h2
          obtain ⟨t, ht⟩ := h2
          rw [h1, (List.append_eq_nil.mp ht).1]
          exact ⟨_, rfl⟩
        · rw [if_neg hw]
          by_cases hc : (!isSpc c) = true
          · rw [List.takeWhile_cons, if_pos hc, List.takeWhile_cons, if_pos hc]
            obtain ⟨t, ht⟩ := ih rest (by
              simp only [List.length_cons] at hl
              omega)
            exact ⟨t, by rw [List.cons_append, ht]⟩
          · refine ⟨[], ?_⟩
            rw [List.takeWhile_cons, if_neg hc, List.takeWhile_cons, if_neg hc]
            rfl

/-- The URL regex matches nowhere in `urlSub`'s output. -/
theorem urlFree_urlSub_aux : ∀ (n : Nat) (l : List Char), l.length ≤ n →
    urlFree (urlSub l) := by
  intro n
  induction n with
  | zero =>
    intro l hl
    have hnil : l = [] := List.length_eq_zero.mp (Nat.le_zero.mp hl)
    subst hnil
    intro t ht
    simp only [urlSub] at ht
    rw [List.suffix_nil.mp ht]
    decide
  | succ n ih =>
    intro l hl
    cases l with
    | nil =>
      intro t ht
      simp only [urlSub] at ht
      rw [List.suffix_nil.mp ht]
      decide
    | cons c rest =>
      have hrest : rest.length ≤ n := by
        simp only [List.length_cons] at hl
        omega
      simp only [urlSub]
      by_cases hh : httpAt (c :: rest) = true
      · rw [if_pos hh]
        exact ih _ (by
          have h3 := List.length_drop (3 + nonspaceLen (rest.drop 3)) rest
          omega)
      · rw [if_neg hh]
        by_cases hw : wwwAt (c :: rest) = true
        · rw [if_pos hw]
          exact ih _ (by
            have h3 := List.length_drop (2 + nonspaceLen (rest.drop 2)) rest
            omega)
        · rw [if_neg hw]
          intro t ht
          rcases List.suffix_cons_iff.mp ht with rfl | hts
          · cases hb : urlAt (c :: urlSub rest) with
            | false => rfl
            | true =>
              exfalso
              rcases urlAt_shape _ hb with ⟨X, r, hsh, hX⟩ | ⟨X, r, hsh, hX⟩
              · injection hsh with hc1 hsub
                subst hc1
                have hpre : (['t', 't', 'p', X] : List Char) <+: urlSub rest :=
                  ⟨r, by rw [hsub]; rfl⟩
                have hns : ∀ ch ∈ (['t', 't', 'p', X] : List Char), (!isSpc ch) = true := by
                  intro ch hch
                  rcases List.mem_cons.mp hch with rfl | hch
                  · decide
                  rcases List.mem_cons.mp hch with rfl | hch
                  · decide
                  rcases List.mem_cons.mp hch with rfl | hch
                  · decide
                  rcases List.mem_cons.mp hch with rfl | hch
                  · simpa using hX
                  · cases hch
                have h1 := pref_takeWhile _ _ _ hpre hns
                have h2 := nsp_urlSub n rest hrest
                have h3 : rest.takeWhile (fun c => !isSpc c) <+: rest :=
                  ⟨rest.dropWhile (fun c => !isSpc c),
                    List.takeWhile_append_dropWhile _ _⟩
                obtain ⟨rr, hrr⟩ := (h1.trans h2).trans h3
                have hhttp : httpAt ('h' :: rest) = true := by
                  rw [← hrr]
                  simp [httpAt, hX]
                exact absurd hhttp (by simpa using hh)
              · injection hsh with hc1 hsub
                subst hc1
                have hpre : (['w', 'w', X] : List Char) <+: urlSub rest :=
                  ⟨r, by rw [hsub]; rfl⟩
                have hns : ∀ ch ∈ (['w', 'w', X] : List Char), (!isSpc ch) = true := by
                  intro ch hch
                  rcases List.mem_cons.mp hch with rfl | hch
                  · decide
                  rcases List.mem_cons.mp hch with rfl | hch
                  · decide
                  rcases List.mem_cons.mp hch with rfl | hch
                  · simpa using hX
                  · cases hch
                have h1 := pref_takeWhile _ _ _ hpre hns
                have h2 := nsp_urlSub n rest hrest
                have h3 : rest.takeWhile (fun c => !isSpc c) <+: rest :=
                  ⟨rest.dropWhile (fun c => !isSpc c),
                    List.takeWhile_append_dropWhile _ _⟩
                obtain ⟨rr, hrr⟩ := (h1.trans h2).trans h3
                have hwww : wwwAt ('w' :: rest) = true := by
                  rw [← hrr]
                  simp [wwwAt, hX]
                exact absurd hwww (by simpa using hw)
          · exact ih rest hrest t hts

/-- `urlSub`'s output never contains a URL match. -/
theorem urlFree_urlSub (l : List Char) : urlFree (urlSub l) :=
  urlFree_urlSub_aux l.length l (Nat.le_refl _)

/-- A URL-free string is a fixed point of `urlSub`. -/
theorem urlSub_of_urlFree (z : List Char) (h : urlFree z) : urlSub z = z := by
  induction z with
  | nil => simp [urlSub]
  | cons c rest ih =>
    have hc : urlAt (c :: rest) = false := h _ (List.suffix_refl _)
    have hh : httpAt (c :: rest) = false := by
      revert hc
      simp only [urlAt, Bool.or_eq_false_iff]
      intro hc
      exact hc.1
    have hw : wwwAt (c :: rest) = false := by
      revert hc
      simp only [urlAt, Bool.or_eq_false_iff]
      intro hc
      exact hc.2
    simp only [urlSub]
    rw [if_neg (by simp [hh]), if_neg (by simp [hw])]
    rw [ih (fun t ht => h t (ht.trans (List.suffix_cons c rest)))]

/-! ## `splitWS` and `joinWords` lemmas -/

theorem splitWS_words_aux : ∀ (n : Nat) (v : List Char), v.length ≤ n →
    ∀ w ∈ splitWS v, w ≠ [] ∧ ∀ c ∈ w, isSpc c = false := by
  intro n
  induction n with
  | zero =>
    intro v hv w hw
    have hnil : v = [] := List.length_eq_zero.mp (Nat.le_zero.mp hv)
    subst hnil
    simp only [splitWS] at hw
    cases hw
  | succ n ih =>
    intro v hv w hw
    cases v with
    | nil =>
      simp only [splitWS] at hw
      cases hw
    | cons c rest =>
      have hrest : rest.length ≤ n := by
        simp only [List.length_cons] at hv
        omega
      simp only [splitWS] at hw
      by_cases hc : isSpc c = true
      · rw [if_pos hc] at hw
        exact ih rest hrest w hw
      · rw [if_neg hc] at hw
        rcases List.mem_cons.mp hw with rfl | hw
        · refine ⟨List.cons_ne_nil _ _, ?_⟩
          intro ch hch
          rcases List.mem_cons.mp hch with rfl | hch
          · simpa using hc
          · have h2 := List.mem_takeWhile_imp hch
            simpa using h2
        · refine ih (rest.dropWhile (fun d => !isSpc d)) ?_ w hw
          have h2 := (List.dropWhile_suffix (l := rest) (fun d => !isSpc d)).length_le
          omega

theorem splitWS_mid_aux : ∀ (n : Nat) (v : List Char), v.length ≤ n →
    ∀ w ∈ splitWS v, ∃ p q, v = p ++ w ++ q := by
  intro n
  induction n with
  | zero =>
    intro v hv w hw
    have hnil : v = [] := List.length_eq_zero.mp (Nat.le_zero.mp hv)
    subst hnil
    simp only [splitWS] at hw
    cases hw
  | succ n ih =>
    intro v hv w hw
    cases v with
    | nil =>
      simp only [splitWS] at hw
      cases hw
    | cons c rest =>
      have hrest : rest.length ≤ n := by
        simp only [List.length_cons] at hv
        omega
      simp only [splitWS] at hw
      by_cases hc : isSpc c = true
      · rw [if_pos hc] at hw
        obtain ⟨p, q, hpq⟩ := ih rest hrest w hw
        exact ⟨c :: p, q, by rw [hpq]; rfl⟩
      · rw [if_neg hc] at hw
        rcases List.mem_cons.mp hw with rfl | hw
        · refine ⟨[], rest.dropWhile (fun d => !isSpc d), ?_⟩
          rw [List.nil_append, List.cons_append, List.takeWhile_append_dropWhile]
        · obtain ⟨p, q, hpq⟩ := ih (rest.dropWhile (fun d => !isSpc d)) (by
            have h2 := (List.dropWhile_suffix (l := rest) (fun d => !isSpc d)).length_le
            omega) w hw
          refine ⟨(c :: rest.takeWhile (fun d => !isSpc d)) ++ p, q, ?_⟩
          conv_lhs => rw [show (c :: rest) =
            (c :: rest.takeWhile (fun d => !isSpc d)) ++ rest.dropWhile (fun d => !isSpc d) from by
              rw [List.cons_append, List.takeWhile_append_dropWhile]]
          rw [hpq]
          simp [List.append_assoc]

theorem splitWS_joinWords : ∀ ws : List (List Char),
    (∀ w ∈ ws, w ≠ []) → (∀ w ∈ ws, ∀ c ∈ w, isSpc c = false) →
    splitWS (joinWords ws) = ws := by
  intro ws
  induction ws with
  | nil =>
    intro _ _
    simp [joinWords, splitWS]
  | cons w ws ih =>
    intro hne hns
    obtain ⟨c, w', rfl⟩ : ∃ c w', w = c :: w' := by
      cases w with
      | nil => exact absurd rfl (hne _ (List.mem_cons_self _ _))
      | cons c w' => exact ⟨c, w', rfl⟩
    have hcw : ∀ ch ∈ c :: w', isSpc ch = false := hns _ (List.mem_cons_self _ _)
    have hcns : ¬isSpc c = true := by
      simp [hcw c (List.mem_cons_self _ _)]
    have hwall : ∀ ch ∈ w', (fun d => !isSpc d) ch = true := by
      intro ch hch
      simp [hcw ch (List.mem_cons_of_mem _ hch)]
    cases ws with
    | nil =>
      simp only [joinWords, splitWS]
      rw [if_neg hcns, takeWhile_all _ w' hwall, dropWhile_all _ w' hwall]
      simp only [splitWS]
    | cons w2 ws' =>
      simp only [joinWords, List.cons_append, splitWS]
      rw [if_neg hcns]
      rw [List.takeWhile_append_of_pos hwall, List.dropWhile_append_of_pos hwall]
      rw [show (' ' :: joinWords (w2 :: ws')).takeWhile (fun d => !isSpc d) = [] from by
        rw [List.takeWhile_cons, if_neg (by decide)]]
      rw [show (' ' :: joinWords (w2 :: ws')).dropWhile (fun d => !isSpc d) =
          ' ' :: joinWords (w2 :: ws') from by
        rw [List.dropWhile_cons, if_neg (by decide)]]
      rw [show splitWS (' ' :: joinWords (w2 :: ws')) = splitWS (joinWords (w2 :: ws')) from by
        simp only [splitWS]
        rw [if_pos (by decide)]]
      rw [ih (fun v hv => hne v (List.mem_cons_of_mem _ hv))
          (fun v hv => hns v (List.mem_cons_of_mem _ hv))]
      simp

theorem mem_joinWords : ∀ (ws : List (List Char)) (c : Char),
    c ∈ joinWords ws → c = ' ' ∨ ∃ w ∈ ws, c ∈ w := by
  intro ws
  induction ws with
  | nil =>
    intro c hc
    cases hc
  | cons w ws ih =>
    cases ws with
    | nil =>
      intro c hc
      exact Or.inr ⟨w, List.mem_cons_self _ _, by simpa [joinWords] using hc⟩
    | cons w2 ws' =>
      intro c hc
      simp only [joinWords] at hc
      rcases List.mem_append.mp hc with hcw | hctail
      · exact Or.inr ⟨w, List.mem_cons_self _ _, hcw⟩
      · rcases List.mem_cons.mp hctail with rfl | hc2
        · exact Or.inl rfl
        · rcases ih c hc2 with h | ⟨w', hw', hcw'⟩
          · exact Or.inl h
          · exact Or.inr ⟨w', List.mem_cons_of_mem _ hw', hcw'⟩

theorem head_joinWords : ∀ (ws : List (List Char)), (∀ w ∈ ws, w ≠ []) →
    ∀ c, (joinWords ws).head? = some c → ∃ w ∈ ws, c ∈ w := by
  intro ws
  induction ws with
  | nil =>
    intro _ c hc
    cases hc
  | cons w ws _ =>
    intro hne c hc
    obtain ⟨d, w', rfl⟩ : ∃ d w', w = d :: w' := by
      cases w with
      | nil => exact absurd rfl (hne _ (List.mem_cons_self _ _))
      | cons d w' => exact ⟨d, w', rfl⟩
    cases ws with
    | nil =>
      simp only [joinWords, List.head?_cons, Option.some.injEq] at hc
      subst hc
      exact ⟨_, List.mem_cons_self _ _, List.mem_cons_self _ _⟩
    | cons w2 ws' =>
      simp only [joinWords, List.cons_append, List.head?_cons, Option.some.injEq] at hc
      subst hc
      exact ⟨_, List.mem_cons_self _ _, List.mem_cons_self _ _⟩

theorem joinWords_ne_nil (w : List Char) (ws : List (List Char)) (hw : w ≠ []) :
    joinWords (w :: ws) ≠ [] := by
  cases ws with
  | nil => simpa [joinWords] using hw
  | cons w2 ws' =>
    simp only [joinWords]
    intro h
    exact absurd (List.append_eq_nil.mp h).2 (List.cons_ne_nil _ _)

theorem getLast_joinWords : ∀ (ws : List (List Char)), (∀ w ∈ ws, w ≠ []) →
    ∀ c, (joinWords ws).getLast? = some c → ∃ w ∈ ws, c ∈ w := by
  intro ws
  induction ws with
  | nil =>
    intro _ c hc
    cases hc
  | cons w ws ih =>
    intro hne c hc
    cases ws with
    | nil =>
      refine ⟨w, List.mem_cons_self _ _, ?_⟩
      exact List.mem_of_mem_getLast? (by simpa [joinWords] using hc)
    | cons w2 ws' =>
      have hne' : ∀ v ∈ w2 :: ws', v ≠ [] := fun v hv => hne v (List.mem_cons_of_mem _ hv)
      have hJne : joinWords (w2 :: ws') ≠ [] :=
        joinWords_ne_nil w2 ws' (hne' _ (List.mem_cons_self _ _))
      simp only [joinWords] at hc
      rw [List.getLast?_append] at hc
      have h2 : (' ' :: joinWords (w2 :: ws')).getLast? = (joinWords (w2 :: ws')).getLast? := by
        cases hJ : joinWords (w2 :: ws') with
        | nil => exact absurd hJ hJne
        | cons d ds => rw [List.getLast?_cons_cons]
      rw [h2] at hc
      cases hJl : (joinWords (w2 :: ws')).getLast? with
      | none =>
        rw [hJl] at hc
        simp only [Option.none_or] at hc
        exact absurd (List.getLast?_eq_none_iff.mp hJl) hJne
      | some x =>
        rw [hJl] at hc
        simp only [Option.or_some, Option.some.injEq] at hc
        subst hc
        obtain ⟨w', hw', hcw'⟩ := ih hne' x hJl
        exact ⟨w', List.mem_cons_of_mem _ hw', hcw'⟩

theorem chain_word (w : List Char) (hns : ∀ c ∈ w, isSpc c = false) :
    w.Chain' (fun a b => a = ' ' → b ≠ ' ') := by
  refine List.Pairwise.chain' (List.pairwise_of_forall_mem_list ?_)
  intro a ha b _ haeq
  have h2 := hns a ha
  rw [haeq] at h2
  exact absurd h2 (by decide)

theorem chain_joinWords : ∀ (ws : List (List Char)), (∀ w ∈ ws, w ≠ []) →
    (∀ w ∈ ws, ∀ c ∈ w, isSpc c = false) →
    (joinWords ws).Chain' (fun a b => a = ' ' → b ≠ ' ') := by
  intro ws
  induction ws with
  | nil =>
    intro _ _
    simp [joinWords]
  | cons w ws ih =>
    intro hne hns
    cases ws with
    | nil =>
      simpa [joinWords] using chain_word w (hns w (List.mem_cons_self _ _))
    | cons w2 ws' =>
      have hne' : ∀ v ∈ w2 :: ws', v ≠ [] := fun v hv => hne v (List.mem_cons_of_mem _ hv)
      have hns' : ∀ v ∈ w2 :: ws', ∀ c ∈ v, isSpc c = false :=
        fun v hv => hns v (List.mem_cons_of_mem _ hv)
      simp only [joinWords]
      rw [List.chain'_append]
      refine ⟨chain_word w (hns w (List.mem_cons_self _ _)), ?_, ?_⟩
      · rw [List.chain'_cons']
        refine ⟨?_, ih hne' hns'⟩
        intro y hy _
        obtain ⟨w', hw', hyw'⟩ := head_joinWords (w2 :: ws') hne' y hy
        have h2 := hns' w' hw' y hyw'
        intro hy'
        rw [hy'] at h2
        exact absurd h2 (by decide)
      · intro x hx y _
        have hxw : x ∈ w := List.mem_of_mem_getLast? hx
        have hxs := hns w (List.mem_cons_self _ _) x hxw
        intro hx'
        rw [hx'] at hxs
        exact absurd hxs (by decide)

/-! ## `toSpaces` lemmas -/

theorem sp_inv (c d : Char) (hd : isSpc d = false)
    (h : (if isAlphaChar c || isSpc c then c else ' ') = d) :
    c = d ∧ isAlphaChar d = true := by
  by_cases hA : (isAlphaChar c || isSpc c) = true
  · rw [if_pos hA] at h
    subst h
    rw [Bool.or_eq_true] at hA
    rcases hA with h1 | h1
    · exact ⟨rfl, h1⟩
    · exact absurd h1 (by simp [hd])
  · rw [if_neg hA] at h
    subst h
    exact absurd hd (by decide)

theorem mem_toSpaces_nonspace (l : List Char) (c : Char) (hc : c ∈ toSpaces l)
    (hns : isSpc c = false) : isAlphaChar c = true ∧ c ∈ l := by
  simp only [toSpaces, List.mem_map] at hc
  obtain ⟨c0, hc0, hmap⟩ := hc
  obtain ⟨heq, halpha⟩ := sp_inv c0 c hns hmap
  subst heq
  exact ⟨halpha, hc0⟩

theorem map_sp_eq (zm : List Char) : ∀ m : List Char,
    zm.map (fun c => if isAlphaChar c || isSpc c then c else ' ') = m →
    (∀ c ∈ m, isSpc c = false) → zm = m := by
  induction zm with
  | nil =>
    intro m h _
    rw [List.map_nil] at h
    exact h
  | cons a zm' ih =>
    intro m h hm
    rw [List.map_cons] at h
    cases m with
    | nil => cases h
    | cons b m' =>
      injection h with h1 h2
      obtain ⟨heq, -⟩ := sp_inv a b (hm b (List.mem_cons_self _ _)) h1
      rw [heq, ih m' h2 (fun c hc => hm c (List.mem_cons_of_mem _ hc))]

theorem toSpaces_decomp (z P m Q : List Char)
    (h : toSpaces z = P ++ m ++ Q) (hm : ∀ c ∈ m, isSpc c = false) :
    ∃ zP zQ, z = zP ++ m ++ zQ := by
  rw [toSpaces, List.append_assoc] at h
  obtain ⟨zP, l2, rfl, hP, h2⟩ := List.map_eq_append_iff.mp h
  obtain ⟨zm, zQ, rfl, hm2, hQ⟩ := List.map_eq_append_iff.mp h2
  have hzm : zm = m := map_sp_eq zm m hm2 hm
  subst hzm
  exact ⟨zP, zQ, by rw [List.append_assoc]⟩

/-! ## Words of `clean_text`'s output never start a URL match -/

theorem wordOK_word (z : List Char) (hz : urlFree z) (w : List Char)
    (hw : w ∈ splitWS (toSpaces z)) : wordOK w := by
  intro u hu
  cases hb : urlAt (u ++ [' ']) with
  | false => rfl
  | true =>
    exfalso
    have hwprops := splitWS_words_aux (toSpaces z).length (toSpaces z) (Nat.le_refl _) w hw
    obtain ⟨t0, ht0⟩ := hu
    have hun : ∀ c ∈ u, isSpc c = false := by
      intro c hc
      exact hwprops.2 c (by rw [← ht0]; exact List.mem_append_right _ hc)
    obtain ⟨p0, q0, hpq⟩ := splitWS_mid_aux (toSpaces z).length (toSpaces z) (Nat.le_refl _) w hw
    have hmid : toSpaces z = (p0 ++ t0) ++ u ++ q0 := by
      rw [hpq, ← ht0]
      simp [List.append_assoc]
    rcases urlAt_shape _ hb with ⟨X, r, heq, hX⟩ | ⟨X, r, heq, hX⟩
    · rcases u with _ | ⟨u1, _ | ⟨u2, _ | ⟨u3, _ | ⟨u4, _ | ⟨u5, u'⟩⟩⟩⟩⟩ <;>
        simp only [List.nil_append, List.cons_append, List.cons.injEq] at heq
      · exact absurd heq.1 (by decide)
      · exact absurd heq.2.1 (by decide)
      · exact absurd heq.2.2.1 (by decide)
      · exact absurd heq.2.2.2.1 (by decide)
      · obtain ⟨rfl, -⟩ := heq.2.2.2.2
        exact absurd hX (by simp [isSpc])
      · obtain ⟨rfl, rfl, rfl, rfl, rfl, -⟩ := heq
        obtain ⟨zP, zQ, hzdec⟩ :=
          toSpaces_decomp z (p0 ++ t0) ('h' :: 't' :: 't' :: 'p' :: u5 :: u') q0 hmid hun
        have hsuf : ('h' :: 't' :: 't' :: 'p' :: u5 :: u') ++ zQ <:+ z :=
          ⟨zP, by rw [hzdec, List.append_assoc]⟩
        have hfree := hz _ hsuf
        have htrue := urlAt_http u5 (u' ++ zQ) hX
        rw [show ('h' :: 't' :: 't' :: 'p' :: u5 :: u') ++ zQ =
          'h' :: 't' :: 't' :: 'p' :: u5 :: (u' ++ zQ) from by simp] at hfree
        rw [htrue] at hfree
        cases hfree
    · rcases u with _ | ⟨u1, _ | ⟨u2, _ | ⟨u3, _ | ⟨u4, u'⟩⟩⟩⟩ <;>
        simp only [List.nil_append, List.cons_append, List.cons.injEq] at heq
      · exact absurd heq.1 (by decide)
      · exact absurd heq.2.1 (by decide)
      · exact absurd heq.2.2.1 (by decide)
      · obtain ⟨rfl, -⟩ := heq.2.2.2
        exact absurd hX (by simp [isSpc])
      · obtain ⟨rfl, rfl, rfl, rfl, -⟩ := heq
        obtain ⟨zP, zQ, hzdec⟩ :=
          toSpaces_decomp z (p0 ++ t0) ('w' :: 'w' :: 'w' :: u4 :: u') q0 hmid hun
        have hsuf : ('w' :: 'w' :: 'w' :: u4 :: u') ++ zQ <:+ z :=
          ⟨zP, by rw [hzdec, List.append_assoc]⟩
        have hfree := hz _ hsuf
        have htrue := urlAt_www u4 (u' ++ zQ) hX
        rw [show ('w' :: 'w' :: 'w' :: u4 :: u') ++ zQ =
          'w' :: 'w' :: 'w' :: u4 :: (u' ++ zQ) from by simp] at hfree
        rw [htrue] at hfree
        cases hfree

theorem suffix_append_cases : ∀ (a b t : List Char), t <:+ (a ++ b) →
    (∃ u, u <:+ a ∧ t = u ++ b) ∨ t <:+ b := by
  intro a
  induction a with
  | nil =>
    intro b t ht
    exact Or.inr (by simpa using ht)
  | cons x a ih =>
    intro b t ht
    rw [List.cons_append] at ht
    rcases List.suffix_cons_iff.mp ht with rfl | ht'
    · exact Or.inl ⟨x :: a, List.suffix_refl _, by rw [List.cons_append]⟩
    · rcases ih b t ht' with ⟨u, hu, rfl⟩ | h
      · exact Or.inl ⟨u, hu.trans (List.suffix_cons x a), rfl⟩
      · exact Or.inr h

theorem urlFree_joinWords (ws : List (List Char)) :
    (∀ w ∈ ws, w ≠ []) → (∀ w ∈ ws, ∀ c ∈ w, isSpc c = false) →
    (∀ w ∈ ws, wordOK w) → urlFree (joinWords ws) := by
  induction ws with
  | nil =>
    intro _ _ _ t ht
    simp only [joinWords] at ht
    rw [List.suffix_nil.mp ht]
    decide
  | cons w ws ih =>
    intro hne hns hok
    cases ws with
    | nil =>
      intro t ht
      have ht' : t <:+ w := by simpa [joinWords] using ht
      cases hb : urlAt t with
      | false => rfl
      | true =>
        exfalso
        have hokw := hok w (List.mem_cons_self _ _) t ht'
        have h2 := urlAt_append_ext t [' '] hb
        rw [h2] at hokw
        cases hokw
    | cons w2 ws' =>
      intro t ht
      simp only [joinWords] at ht
      rcases suffix_append_cases w (' ' :: joinWords (w2 :: ws')) t ht with ⟨u, hu, rfl⟩ | hts
      · cases hb : urlAt (u ++ ' ' :: joinWords (w2 :: ws')) with
        | false => rfl
        | true =>
          exfalso
          have hsent := urlAt_sentinel _ _ hb
          have hokw := hok w (List.mem_cons_self _ _) u hu
          rw [hsent] at hokw
          cases hokw
      · rcases List.suffix_cons_iff.mp hts with rfl | hts2
        · cases hb : urlAt (' ' :: joinWords (w2 :: ws')) with
          | false => rfl
          | true =>
            exfalso
            rcases urlAt_shape _ hb with ⟨X, r, heq, -⟩ | ⟨X, r, heq, -⟩ <;>
              (injection heq with h1 _; exact absurd h1 (by decide))
        · exact ih (fun v hv => hne v (List.mem_cons_of_mem _ hv))
            (fun v hv => hns v (List.mem_cons_of_mem _ hv))
            (fun v hv => hok v (List.mem_cons_of_mem _ hv)) t hts2

/-! ## The word structure of `clean_text`'s output -/

theorem urlSub_sublist_aux : ∀ (n : Nat) (l : List Char), l.length ≤ n →
    List.Sublist (urlSub l) l := by
  intro n
  induction n with
  | zero =>
    intro l hl
    have hnil : l = [] := List.length_eq_zero.mp (Nat.le_zero.mp hl)
    subst hnil
    simp only [urlSub]
    exact List.Sublist.refl _
  | succ n ih =>
    intro l hl
    cases l with
    | nil =>
      simp only [urlSub]
      exact List.Sublist.refl _
    | cons c rest =>
      have hrest : rest.length ≤ n := by
        simp only [List.length_cons] at hl
        omega
      simp only [urlSub]
      by_cases hh : httpAt (c :: rest) = true
      · rw [if_pos hh]
        refine (ih _ (by
          have h3 := List.length_drop (3 + nonspaceLen (rest.drop 3)) rest
          omega)).trans ?_
        exact (List.drop_sublist _ _).trans (List.sublist_cons_self c rest)
      · rw [if_neg hh]
        by_cases hw : wwwAt (c :: rest) = true
        · rw [if_pos hw]
          refine (ih _ (by
            have h3 := List.length_drop (2 + nonspaceLen (rest.drop 2)) rest
            omega)).trans ?_
          exact (List.drop_sublist _ _).trans (List.sublist_cons_self c rest)
        · rw [if_neg hw]
          exact List.Sublist.cons₂ c (ih rest hrest)

theorem urlSub_sublist (l : List Char) : List.Sublist (urlSub l) l :=
  urlSub_sublist_aux l.length l (Nat.le_refl _)

/-- Master structure lemma: `clean_text`'s output is a space-joined list of
non-empty words of lowercase letters, none of which can start a URL match. -/
theorem clean_words (s : List Char) :
    ∃ ws : List (List Char),
      clean_text (some s) = joinWords ws ∧
      (∀ w ∈ ws, w ≠ []) ∧
      (∀ w ∈ ws, ∀ c ∈ w, isSpc c = false ∧ isAlphaChar c = true ∧
        ¬('A' ≤ c ∧ c ≤ 'Z')) ∧
      (∀ w ∈ ws, wordOK w) := by
  refine ⟨splitWS (toSpaces (urlSub (lowerStr s))), rfl, ?_, ?_, ?_⟩
  · intro w hw
    exact (splitWS_words_aux _ _ (Nat.le_refl _) w hw).1
  · intro w hw c hc
    have hns := (splitWS_words_aux _ _ (Nat.le_refl _) w hw).2 c hc
    obtain ⟨p, q, hpq⟩ := splitWS_mid_aux _ _ (Nat.le_refl _) w hw
    have hcv : c ∈ toSpaces (urlSub (lowerStr s)) := by
      rw [hpq]
      exact List.mem_append_left _ (List.mem_append_right _ hc)
    obtain ⟨halpha, hcz⟩ := mem_toSpaces_nonspace _ c hcv hns
    have hcl : c ∈ lowerStr s := (urlSub_sublist _).subset hcz
    obtain ⟨c0, hc0, rfl⟩ := List.mem_map.mp hcl
    exact ⟨hns, halpha, toLowerChar_not_upper c0⟩
  · intro w hw
    exact wordOK_word _ (urlFree_urlSub _) w hw

/-! ## C8: idempotence of the normaliser -/

/-- C8: `clean_text` is idempotent on every input string. -/
theorem clean_text_idempotent :
    ∀ s : List Char, clean_text (some (clean_text (some s))) = clean_text (some s) := by
  intro s
  obtain ⟨ws, hy, hne, hchars, hok⟩ := clean_words s
  rw [hy]
  have hns : ∀ w ∈ ws, ∀ c ∈ w, isSpc c = false :=
    fun w hw c hc => (hchars w hw c hc).1
  have hjchars : ∀ c ∈ joinWords ws, ¬('A' ≤ c ∧ c ≤ 'Z') ∧
      (isAlphaChar c = true ∨ c = ' ') := by
    intro c hc
    rcases mem_joinWords ws c hc with rfl | ⟨w, hw, hcw⟩
    · exact ⟨by decide, Or.inr rfl⟩
    · exact ⟨(hchars w hw c hcw).2.2, Or.inl (hchars w hw c hcw).2.1⟩
  show joinWords (splitWS (toSpaces (urlSub (lowerStr (joinWords ws))))) = joinWords ws
  have h1 : lowerStr (joinWords ws) = joinWords ws := by
    rw [lowerStr,
      List.map_congr_left (fun c hc => toLowerChar_fix c (hjchars c hc).1), List.map_id']
  rw [h1]
  have h2 : urlSub (joinWords ws) = joinWords ws :=
    urlSub_of_urlFree _ (urlFree_joinWords ws hne hns hok)
  rw [h2]
  have h3 : toSpaces (joinWords ws) = joinWords ws := by
    rw [toSpaces]
    rw [List.map_congr_left (fun c hc => ?_), List.map_id']
    rcases (hjchars c hc).2 with h | h
    · exact if_pos (by simp [h])
    · exact if_pos (by simp [h, isSpc])
  rw [h3]
  rw [splitWS_joinWords ws hne hns]

/-! ## C10: character-set and spacing invariants of the normaliser -/

/-- C10: `clean_text` of a missing value is the empty string, and the output
for any string contains only lowercase letters and spaces, never two
consecutive spaces, and no leading or trailing whitespace. -/
theorem clean_text_charset :
    clean_text none = [] ∧
    ∀ s : List Char,
      (∀ c ∈ clean_text (some s), ('a' ≤ c ∧ c ≤ 'z') ∨ c = ' ') ∧
      (clean_text (some s)).Chain' (fun a b => a = ' ' → b ≠ ' ') ∧
      (∀ c, (clean_text (some s)).head? = some c → isSpc c = false) ∧
      (∀ c, (clean_text (some s)).getLast? = some c → isSpc c = false) := by
  refine ⟨rfl, ?_⟩
  intro s
  obtain ⟨ws, hy, hne, hchars, -⟩ := clean_words s
  rw [hy]
  have hns : ∀ w ∈ ws, ∀ c ∈ w, isSpc c = false :=
    fun w hw c hc => (hchars w hw c hc).1
  refine ⟨?_, chain_joinWords ws hne hns, ?_, ?_⟩
  · intro c hc
    rcases mem_joinWords ws c hc with rfl | ⟨w, hw, hcw⟩
    · exact Or.inr rfl
    · exact Or.inl (lower_of_alpha_not_upper c (hchars w hw c hcw).2.1
        (hchars w hw c hcw).2.2)
  · intro c hc
    obtain ⟨w, hw, hcw⟩ := head_joinWords ws hne c hc
    exact hns w hw c hcw
  · intro c hc
    obtain ⟨w, hw, hcw⟩ := getLast_joinWords ws hne c hc
    exact hns w hw c hcw

end BlrDash
